import Mathlib

/-!
Verification of the `grafos` co-occurrence graph pipeline.

This file gives a shallow embedding of `src/graph_builder.py` and
`src/metrics.py` and proves/refutes the specification claims about them.

Modelling conventions:
* A table cell is `Option String` (`none` models a missing/NaN value; values
  are modelled already stringified, matching `str(val)` inside `node_id`).
* A row is a function from column name to cell; a table is a list of rows.
* A `networkx.Graph` is a pair of insertion-ordered lists: node entries
  `(id, label?, column?)` and undirected edge entries `(u, v, weight)`
  (at most one entry per unordered pair, enforced by the `has_edge` guard
  in the source).
* External library calls in `metrics.py` (networkx betweenness, scipy
  eigensolver, igraph/louvain/greedy community detection, and the
  pandas `sort_values` at the end) are modelled by an explicit environment
  of `Except`-valued functions; the `try/except` structure of the source is
  embedded as explicit `match`es on those results.
-/

namespace Grafos

/-- A cell: `none` is a missing (NaN) value. -/
abbrev Cell := Option String

/-- A table row: column name to cell. -/
abbrev Row := String → Cell

/-- A table: list of rows. -/
abbrev Table := List Row

/-- `node_id` from graph_builder.py: `f"{col}::" + str(val)`. -/
def node_id (col val : String) : String := col ++ "::" ++ val

/-- A node entry of the networkx graph: id, `label` attribute, `column`
attribute (attributes are absent for nodes auto-added by `add_edge`). -/
abbrev NodeEntry := String × Option String × Option String

/-- An edge entry: endpoints and the `weight` attribute. -/
abbrev EdgeEntry := String × String × Nat

/-- The relevant state of a `networkx.Graph`: insertion-ordered node and edge
entry lists. -/
structure Graph where
  nodes : List NodeEntry
  edges : List EdgeEntry
deriving DecidableEq

/-- The empty `nx.Graph()`. -/
def Graph.empty : Graph := ⟨[], []⟩

@[ext] theorem Graph.ext {G H : Graph} (h1 : G.nodes = H.nodes) (h2 : G.edges = H.edges) :
    G = H := by
  cases G; cases H; cases h1; cases h2; rfl

/-- `G.add_node(id, label=lab, column=col)`: upserts the entry, overwriting
attributes when the id is already present. -/
def addNode (G : Graph) (id lab col : String) : Graph :=
  if G.nodes.any (fun p => p.1 == id) then
    { G with nodes := G.nodes.map (fun p => if p.1 == id then (id, some lab, some col) else p) }
  else
    { G with nodes := G.nodes ++ [(id, some lab, some col)] }

/-- The implicit node insertion performed by `G.add_edge` for an absent
endpoint (no attributes). -/
def addNodeIfAbsent (G : Graph) (id : String) : Graph :=
  if G.nodes.any (fun p => p.1 == id) then G
  else { G with nodes := G.nodes ++ [(id, none, none)] }

/-- Whether an edge entry represents the unordered pair `{a, b}`. -/
def matchesEdge (e : EdgeEntry) (a b : String) : Bool :=
  (e.1 == a && e.2.1 == b) || (e.1 == b && e.2.1 == a)

/-- `G.has_edge(a, b)`. -/
def hasEdge (G : Graph) (a b : String) : Bool :=
  G.edges.any (fun e => matchesEdge e a b)

/-- `G[a][b]["weight"] += 1`: bump the (unique) entry for `{a, b}`. -/
def bumpWeight : List EdgeEntry → String → String → List EdgeEntry
  | [], _, _ => []
  | e :: es, a, b =>
    if matchesEdge e a b then (e.1, e.2.1, e.2.2 + 1) :: es
    else e :: bumpWeight es a b

/-- The edge update in the row loop of `build_cooccurrence_graph`:
`if G.has_edge(u, v): G[u][v]["weight"] += 1 else: G.add_edge(u, v, weight=1)`. -/
def addEdge (G : Graph) (a b : String) : Graph :=
  if hasEdge G a b then { G with edges := bumpWeight G.edges a b }
  else
    let G' := addNodeIfAbsent (addNodeIfAbsent G a) b
    { G' with edges := G'.edges ++ [(a, b, 1)] }

/-- Left-to-right duplicate removal, as `pandas.Series.unique` (keeps the
first occurrence of each value). -/
def firstDedup (l : List String) : List String :=
  l.foldl (fun acc v => if v ∈ acc then acc else acc ++ [v]) []

/-- The non-missing values of column `c`, in row order (`df[col].dropna()`). -/
def colVals (T : Table) (c : String) : List String :=
  T.filterMap (fun r => r c)

/-- `df[col].dropna().unique()`. -/
def uniqueVals (T : Table) (c : String) : List String :=
  firstDedup (colVals T c)

/-- The node-adding loop body for one column:
`for v in unique_vals: G.add_node(node_id(col, v), label=str(v), column=col)`. -/
def addColNodes (T : Table) (G : Graph) (c : String) : Graph :=
  (uniqueVals T c).foldl (fun g v => addNode g (node_id c v) v c) G

/-- `items = [(c, row[c]) for c in cols if pd.notna(row[c])]`. -/
def rowItems (cols : List String) (r : Row) : List (String × String) :=
  cols.filterMap (fun c => (r c).map (fun v => (c, v)))

/-- `itertools.combinations(items, 2)` in its enumeration order. -/
def pairs {α : Type} : List α → List (α × α)
  | [] => []
  | x :: xs => xs.map (fun y => (x, y)) ++ pairs xs

/-- Processing one 2-combination of a row's items. -/
def addPair (G : Graph) (p : (String × String) × (String × String)) : Graph :=
  addEdge G (node_id p.1.1 p.1.2) (node_id p.2.1 p.2.2)

/-- Processing one table row of the edge loop.  Rows dropped by
`dropna(how="all")` have no items and hence contribute nothing, so the
pre-filtering of all-missing rows in the source is a no-op here. -/
def addRow (cols : List String) (G : Graph) (r : Row) : Graph :=
  (pairs (rowItems cols r)).foldl addPair G

/-- Whether an edge entry is incident to node `n`. -/
def incident (e : EdgeEntry) (n : String) : Bool :=
  e.1 == n || e.2.1 == n

/-- The `min_count` post-pass of `build_cooccurrence_graph`: when
`min_count > 1`, remove edges with `weight < min_count`, then remove the
nodes left without incident edges (`nx.isolates`). -/
def filterGraph (G : Graph) (minCount : Nat) : Graph :=
  if 1 < minCount then
    let edges' := G.edges.filter (fun e => !(e.2.2 < minCount))
    { nodes := G.nodes.filter (fun p => edges'.any (fun e => incident e p.1)),
      edges := edges' }
  else G

/-- The node-adding phase of `build_cooccurrence_graph`. -/
def nodePhase (T : Table) (cols : List String) : Graph :=
  cols.foldl (addColNodes T) Graph.empty

/-- The row/edge phase of `build_cooccurrence_graph`. -/
def edgePhase (T : Table) (cols : List String) (G : Graph) : Graph :=
  T.foldl (addRow cols) G

/-- `build_cooccurrence_graph(df, cols, min_count)` from graph_builder.py. -/
def build_cooccurrence_graph (T : Table) (cols : List String) (minCount : Nat := 1) : Graph :=
  filterGraph (edgePhase T cols (nodePhase T cols)) minCount

/-! ## Measurement functions on graphs

These are the quantities the claims speak about; `degreeU`/`degreeW` embed
`G.degree()` / `G.degree(weight="weight")` from metrics.py (networkx counts a
self-loop twice in a node's degree). -/

/-- `dict(G.degree())[n]`: unweighted degree, one per incident endpoint. -/
def degreeU (G : Graph) (n : String) : Nat :=
  (G.edges.map (fun e => (if e.1 = n then 1 else 0) + (if e.2.1 = n then 1 else 0))).sum

/-- `dict(G.degree(weight="weight"))[n]`: weighted degree. -/
def degreeW (G : Graph) (n : String) : Nat :=
  (G.edges.map (fun e => (if e.1 = n then e.2.2 else 0) + (if e.2.1 = n then e.2.2 else 0))).sum

/-- The total weight carried by an edge list. -/
def totalWeight (G : Graph) : Nat :=
  (G.edges.map (fun e => e.2.2)).sum

/-- Accumulated weight stored for the unordered pair `{a, b}` (sum over all
matching entries; the builder keeps at most one). -/
def weightBetween (es : List EdgeEntry) (a b : String) : Nat :=
  ((es.filter (fun e => matchesEdge e a b)).map (fun e => e.2.2)).sum

/-- The node ids produced by one row's items. -/
def rowIds (cols : List String) (r : Row) : List String :=
  (rowItems cols r).map (fun it => node_id it.1 it.2)

/-- Number of records in which the values behind nodes `u` and `v` both
appear (the spec's reading of an edge weight). -/
def countCooc (T : Table) (cols : List String) (u v : String) : Nat :=
  T.countP (fun r => (rowIds cols r).contains u && (rowIds cols r).contains v)

/-- Occurring values of a column, with multiplicity: used to bound the
quantifiers of `pairInj`. -/
def occursIn (T : Table) (c v : String) : Prop :=
  ∃ r ∈ T, r c = some v

/-- No two distinct occurring (field, value) pairs collide to one node id.
`node_id` concatenates with `"::"` and is not injective in general (e.g.
column `"a:"` value `"x"` and column `"a"` value `":x"` both give
`"a:::x"`), so this is a genuine side condition; field names without `':'`
satisfy it. -/
def pairInj (cols : List String) (T : Table) : Prop :=
  ∀ c1 ∈ cols, ∀ v1 ∈ colVals T c1, ∀ c2 ∈ cols, ∀ v2 ∈ colVals T c2,
    node_id c1 v1 = node_id c2 v2 → c1 = c2 ∧ v1 = v2

/-! ## Embedding of `metrics.py` -/

/-- The Python exception classes `compute_graph_metrics` distinguishes:
`TypeError` (caught around the sampled betweenness call), `KeyError`
(raised by `DataFrame.sort_values` on a missing column), anything else. -/
inductive PyErr where
  | typeError
  | keyError
  | otherError
deriving DecidableEq

/-- The external library surface of `compute_graph_metrics`.  Each field
models one library call at its `try/except` boundary; a `.error` value is
that call raising. -/
structure MetricsEnv where
  /-- `nx.betweenness_centrality(G, weight="weight")` (exact). -/
  betExact : Graph → Except PyErr (List (String × ℚ))
  /-- `nx.betweenness_centrality(G, k=k, weight="weight", seed=seed)`. -/
  betSampled : Graph → Nat → Nat → Except PyErr (List (String × ℚ))
  /-- Whether `import scipy.sparse` and `nx.to_scipy_sparse_matrix` are
  available (the head of the eigenvector `try` block). -/
  scipyOk : Bool
  /-- `eigs(A, k=1, which="LM", maxiter=200)`: real parts of the returned
  dominant eigenvector, in node order. -/
  eigsVec : Graph → Except PyErr (List ℚ)
  /-- `nx.eigenvector_centrality(G, max_iter=200)`. -/
  nxEig : Graph → Except PyErr (List (String × ℚ))
  /-- The igraph `community_multilevel` block. -/
  igCommunity : Graph → Except PyErr (List (String × Int))
  /-- `community_louvain.best_partition(G, weight="weight")`. -/
  louvain : Graph → Except PyErr (List (String × Int))
  /-- `nx_comm.greedy_modularity_communities(G, weight="weight")`. -/
  greedyComm : Graph → Except PyErr (List (String × Int))

/-- `dict.get(key, dflt)` on an association list. -/
def lookupD {α : Type} (l : List (String × α)) (key : String) (dflt : α) : α :=
  match l.find? (fun p => p.1 == key) with
  | some p => p.2
  | none => dflt

/-- The betweenness source-count selection of `compute_graph_metrics`
(lines 39–45): an explicit `bet_k` wins; otherwise a sample size
`int(min(500, max(50, math.sqrt(n_nodes) * 10)))` is derived only when
`approx_betweenness` holds and the node count exceeds `max_nodes_for_exact`;
otherwise exact betweenness (`none`).  `Nat.sqrt (100 * n)` is
`⌊10 * sqrt n⌋`, the value of the float expression. -/
def kSelection (approx : Bool) (betK : Option Nat) (maxExact n : Nat) : Option Nat :=
  match betK with
  | some k => some k
  | none =>
    if approx && decide (maxExact < n) then
      some (min 500 (max 50 (Nat.sqrt (100 * n))))
    else none

/-- Lines 47–56: the exact call when `k is None`; otherwise the sampled call
with `seed=42`, falling back to the exact call only on `TypeError`. -/
def betStep (env : MetricsEnv) (G : Graph) : Option Nat → Except PyErr (List (String × ℚ))
  | none => env.betExact G
  | some k =>
    match env.betSampled G k 42 with
    | .ok r => .ok r
    | .error .typeError => env.betExact G
    | .error e => .error e

/-- The `except` chain of the eigenvector block: networkx power method, then
`0.0` for every node. -/
def nxEigFallback (env : MetricsEnv) (G : Graph) : List (String × ℚ) :=
  match env.nxEig G with
  | .ok r => r
  | .error _ => G.nodes.map (fun p => (p.1, 0))

/-- Lines 58–81: the eigenvector block.  On the scipy path: empty graph gives
an empty dict, a single node gives `1.0`, otherwise the solver vector is
taken entry-wise absolute and divided by its sum when that is nonzero. -/
def eigBlock (env : MetricsEnv) (G : Graph) : List (String × ℚ) :=
  let ids := G.nodes.map (fun p => p.1)
  if env.scipyOk then
    match ids with
    | [] => []
    | [i] => [(i, 1)]
    | _ =>
      match env.eigsVec G with
      | .ok v =>
        let w := v.map (fun q => |q|)
        let s := w.sum
        let w2 := if s ≠ 0 then w.map (fun q => q / s) else w
        ids.zip w2
      | .error _ => nxEigFallback env G
  else nxEigFallback env G

/-- Lines 83–111: community detection, igraph then louvain then networkx
greedy modularity, else `-1` for every node. -/
def communityStep (env : MetricsEnv) (G : Graph) : List (String × Int) :=
  match env.igCommunity G with
  | .ok r => r
  | .error _ =>
    match env.louvain G with
    | .ok r => r
    | .error _ =>
      match env.greedyComm G with
      | .ok r => r
      | .error _ => G.nodes.map (fun p => (p.1, -1))

/-- One row of `nodes_df`. -/
structure NodeRow where
  nodeId : String
  label : Option String
  column : Option String
  degree : Nat
  degreeWeighted : ℚ
  degreeCentrality : ℚ
  betweenness : ℚ
  eigenvector : ℚ
  community : Int
deriving DecidableEq

/-- Descending insertion of `x` into an already-built list. -/
def insertDesc {α : Type} (key : α → ℚ) (x : α) : List α → List α
  | [] => [x]
  | y :: ys => if key y < key x then x :: y :: ys else y :: insertDesc key x ys

/-- A descending sort by a rational key. -/
def sortDesc {α : Type} (key : α → ℚ) (l : List α) : List α :=
  l.foldr (insertDesc key) []

/-- `pd.DataFrame(rows).sort_values(by, ascending=False)`: a `DataFrame`
built from an empty list of records has no columns at all, so sorting it by
any column name raises `KeyError`; otherwise the rows are sorted descending
by the key. -/
def dfSortValues {α : Type} (key : α → ℚ) (rows : List α) : Except PyErr (List α) :=
  if rows.isEmpty then .error .keyError else .ok (sortDesc key rows)

/-- `compute_graph_metrics(G, approx_betweenness, bet_k, max_nodes_for_exact)`
from metrics.py, over an external-library environment.  Degree metrics are
pure; the betweenness step may raise and is computed first; the eigenvector
and community steps catch every exception internally; assembly sorts
`nodes_df` by weighted degree and `edges_df` by weight. -/
def compute_graph_metrics (env : MetricsEnv) (G : Graph) (approx : Bool := true)
    (betK : Option Nat := none) (maxExact : Nat := 2000) :
    Except PyErr (List NodeRow × List EdgeEntry) :=
  let n := G.nodes.length
  match betStep env G (kSelection approx betK maxExact n) with
  | .error e => .error e
  | .ok bet =>
    let eig := eigBlock env G
    let comm := communityStep env G
    let nrows := G.nodes.map (fun p =>
      { nodeId := p.1
        label := p.2.1
        column := p.2.2
        degree := degreeU G p.1
        degreeWeighted := (degreeW G p.1 : ℚ)
        degreeCentrality := if 1 < n then (degreeU G p.1 : ℚ) / ((n : ℚ) - 1) else 0
        betweenness := lookupD bet p.1 0
        eigenvector := lookupD eig p.1 0
        community := lookupD comm p.1 (-1) : NodeRow })
    match dfSortValues (fun r => r.degreeWeighted) nrows with
    | .error e => .error e
    | .ok ndf =>
      match dfSortValues (fun e => (e.2.2 : ℚ)) G.edges with
      | .error e => .error e
      | .ok edf => .ok (ndf, edf)

/-! ## Spec-side comparison definitions -/

/-- The spec's `clamp(lo, x, hi)`. -/
def specClamp (lo x hi : Nat) : Nat := max lo (min x hi)

/-- The spec's words for the betweenness sample-size selection: "If
`sample_size` is explicitly given, use it ...  Else, if the graph's node
count exceeds `exact_threshold`, auto-derive a sample size:
`clamp(50, sqrt(node_count) * 10, 500)`.  Otherwise compute exact
betweenness" (no mention of the `approx_betweenness` switch). -/
def specSampleSelection (betK : Option Nat) (threshold n : Nat) : Option Nat :=
  match betK with
  | some k => some k
  | none =>
    if threshold < n then some (specClamp 50 (Nat.sqrt (100 * n)) 500) else none

/-- The spec's words for a node's weighted degree: "the sum of the weights
of its incident edges" (each incident edge counted once). -/
def specIncidentWeightSum (G : Graph) (n : String) : Nat :=
  ((G.edges.filter (fun e => incident e n)).map (fun e => e.2.2)).sum

/-! ## Decidability of the side conditions -/

instance (T : Table) (c v : String) : Decidable (occursIn T c v) := by
  unfold occursIn; exact List.decidableBEx _ T

instance (cols : List String) (T : Table) : Decidable (pairInj cols T) := by
  unfold pairInj; infer_instance

deriving instance DecidableEq for Except

/-! ## Helper lemmas: unordered pairs of endpoints -/

/-- Whether two ordered pairs name the same unordered pair. -/
def sameUn (p q : String × String) : Bool :=
  (p.1 == q.1 && p.2 == q.2) || (p.1 == q.2 && p.2 == q.1)

/-- The node ids of a 2-combination of row items. -/
def idPair (p : (String × String) × (String × String)) : String × String :=
  (node_id p.1.1 p.1.2, node_id p.2.1 p.2.2)

theorem sameUn_iff {p q : String × String} :
    sameUn p q = true ↔ (p.1 = q.1 ∧ p.2 = q.2) ∨ (p.1 = q.2 ∧ p.2 = q.1) := by
  simp [sameUn]

theorem sameUn_symm {p q : String × String} (h : sameUn p q = true) : sameUn q p = true := by
  rw [sameUn_iff] at h ⊢; tauto

theorem sameUn_trans {k p q : String × String} (h1 : sameUn k p = true)
    (h2 : sameUn k q = true) : sameUn p q = true := by
  rw [sameUn_iff] at h1 h2 ⊢
  rcases h1 with ⟨h1a, h1b⟩ | ⟨h1a, h1b⟩ <;> rcases h2 with ⟨h2a, h2b⟩ | ⟨h2a, h2b⟩ <;>
    simp_all

theorem matchesEdge_eq_sameUn (e : EdgeEntry) (a b : String) :
    matchesEdge e a b = sameUn (e.1, e.2.1) (a, b) := rfl

theorem sameUn_refl (p : String × String) : sameUn p p = true := by
  rw [sameUn_iff]; exact .inl ⟨rfl, rfl⟩

/-! ## Helper lemmas: weight accounting in the edge list -/

theorem weightBetween_nil (a b : String) : weightBetween [] a b = 0 := rfl

theorem weightBetween_cons (e : EdgeEntry) (es : List EdgeEntry) (a b : String) :
    weightBetween (e :: es) a b =
      (if matchesEdge e a b then e.2.2 else 0) + weightBetween es a b := by
  by_cases h : matchesEdge e a b <;> simp [weightBetween, List.filter_cons, h]

theorem weightBetween_append (es fs : List EdgeEntry) (a b : String) :
    weightBetween (es ++ fs) a b = weightBetween es a b + weightBetween fs a b := by
  simp [weightBetween, List.filter_append]

theorem bumpWeight_keys (es : List EdgeEntry) (a b : String) :
    (bumpWeight es a b).map (fun e => (e.1, e.2.1)) = es.map (fun e => (e.1, e.2.1)) := by
  induction es with
  | nil => rfl
  | cons e es ih =>
    by_cases h : matchesEdge e a b <;> simp [bumpWeight, h, ih]

theorem mem_bumpWeight (es : List EdgeEntry) (a b : String) {e' : EdgeEntry}
    (h : e' ∈ bumpWeight es a b) :
    ∃ e ∈ es, e'.1 = e.1 ∧ e'.2.1 = e.2.1 := by
  induction es with
  | nil => cases h
  | cons e es ih =>
    by_cases hm : matchesEdge e a b = true
    · rw [bumpWeight, if_pos hm] at h
      rcases List.mem_cons.mp h with h | h
      · exact ⟨e, List.mem_cons_self e es, by simp [h]⟩
      · exact ⟨e', List.mem_cons_of_mem _ h, rfl, rfl⟩
    · rw [bumpWeight, if_neg hm] at h
      rcases List.mem_cons.mp h with h | h
      · exact ⟨e, List.mem_cons_self e es, by simp [h]⟩
      · obtain ⟨f, hf, hk⟩ := ih h
        exact ⟨f, List.mem_cons_of_mem _ hf, hk⟩

theorem matchesEdge_self (e : EdgeEntry) : matchesEdge e e.1 e.2.1 = true := by
  rw [matchesEdge_eq_sameUn]; exact sameUn_refl _

theorem weightBetween_bumpWeight (es : List EdgeEntry) (a b x y : String)
    (h : es.any (fun e => matchesEdge e a b) = true) :
    weightBetween (bumpWeight es a b) x y =
      weightBetween es x y + (if sameUn (a, b) (x, y) then 1 else 0) := by
  induction es with
  | nil => simp at h
  | cons e es ih =>
    by_cases hm : matchesEdge e a b = true
    · rw [bumpWeight, if_pos hm, weightBetween_cons, weightBetween_cons]
      have hm' : sameUn (e.1, e.2.1) (a, b) = true := by
        rw [← matchesEdge_eq_sameUn]; exact hm
      have hkey : matchesEdge ((e.1, e.2.1, e.2.2 + 1) : EdgeEntry) x y = matchesEdge e x y :=
        rfl
      have hv : ((e.1, e.2.1, e.2.2 + 1) : EdgeEntry).2.2 = e.2.2 + 1 := rfl
      by_cases hxy : matchesEdge e x y = true
      · have hxy' : sameUn (e.1, e.2.1) (x, y) = true := by
          rw [← matchesEdge_eq_sameUn]; exact hxy
        rw [hkey, if_pos hxy, if_pos hxy, if_pos (sameUn_trans hm' hxy'), hv]; omega
      · have hs : ¬sameUn (a, b) (x, y) = true := by
          intro hc
          exact hxy (by rw [matchesEdge_eq_sameUn]; exact sameUn_trans (sameUn_symm hm') hc)
        rw [hkey, if_neg hxy, if_neg hxy, if_neg hs]; omega
    · rw [bumpWeight, if_neg hm, weightBetween_cons]
      have h' : es.any (fun e => matchesEdge e a b) = true := by
        simp only [List.any_cons] at h
        rcases Bool.or_eq_true_iff.mp h with hc | hc
        · exact absurd hc hm
        · exact hc
      rw [ih h', weightBetween_cons]; omega

theorem edges_addNodeIfAbsent (G : Graph) (i : String) :
    (addNodeIfAbsent G i).edges = G.edges := by
  unfold addNodeIfAbsent; split <;> rfl

/-- The single accounting step of the builder: each processed ordered pair
adds exactly 1 to the accumulated weight of its unordered pair and leaves
every other unordered pair's weight unchanged. -/
theorem weightBetween_addEdge (G : Graph) (a b x y : String) :
    weightBetween (addEdge G a b).edges x y =
      weightBetween G.edges x y + (if sameUn (a, b) (x, y) then 1 else 0) := by
  unfold addEdge
  by_cases h : hasEdge G a b = true
  · rw [if_pos h]
    exact weightBetween_bumpWeight G.edges a b x y h
  · rw [if_neg h]
    show weightBetween ((addNodeIfAbsent (addNodeIfAbsent G a) b).edges ++ [(a, b, 1)]) x y = _
    rw [edges_addNodeIfAbsent, edges_addNodeIfAbsent, weightBetween_append,
      weightBetween_cons, weightBetween_nil, matchesEdge_eq_sameUn]
    by_cases hs : sameUn (a, b) (x, y) = true <;> simp [hs]

theorem totalWeight_eq (G : Graph) : totalWeight G = (G.edges.map (fun e => e.2.2)).sum := rfl

theorem sum_bumpWeight (es : List EdgeEntry) (a b : String)
    (h : es.any (fun e => matchesEdge e a b) = true) :
    ((bumpWeight es a b).map (fun e => e.2.2)).sum = (es.map (fun e => e.2.2)).sum + 1 := by
  induction es with
  | nil => simp at h
  | cons e es ih =>
    by_cases hm : matchesEdge e a b = true
    · rw [bumpWeight, if_pos hm]
      simp only [List.map_cons, List.sum_cons]
      omega
    · rw [bumpWeight, if_neg hm]
      simp only [List.map_cons, List.sum_cons]
      have h' : es.any (fun e => matchesEdge e a b) = true := by
        simp only [List.any_cons] at h
        rcases Bool.or_eq_true_iff.mp h with hc | hc
        · exact absurd hc hm
        · exact hc
      rw [ih h']; omega

theorem edges_addEdge_pos (G : Graph) (a b : String) (h : hasEdge G a b = true) :
    (addEdge G a b).edges = bumpWeight G.edges a b := by
  unfold addEdge; rw [if_pos h]

theorem edges_addEdge_neg (G : Graph) (a b : String) (h : ¬hasEdge G a b = true) :
    (addEdge G a b).edges = G.edges ++ [(a, b, 1)] := by
  unfold addEdge
  rw [if_neg h]
  show (addNodeIfAbsent (addNodeIfAbsent G a) b).edges ++ [(a, b, 1)] = _
  rw [edges_addNodeIfAbsent, edges_addNodeIfAbsent]

theorem totalWeight_addEdge (G : Graph) (a b : String) :
    totalWeight (addEdge G a b) = totalWeight G + 1 := by
  by_cases h : hasEdge G a b = true
  · unfold totalWeight
    rw [edges_addEdge_pos G a b h]
    exact sum_bumpWeight G.edges a b h
  · unfold totalWeight
    rw [edges_addEdge_neg G a b h]
    simp

/-! ## Helper lemmas: uniqueness of unordered edge keys -/

/-- The edge list stores at most one entry per unordered pair. -/
def KeysND (es : List EdgeEntry) : Prop :=
  es.Pairwise (fun e f => sameUn (e.1, e.2.1) (f.1, f.2.1) = false)

theorem keysND_nil : KeysND [] := List.Pairwise.nil

theorem keysND_of_keys_eq {es fs : List EdgeEntry}
    (h : es.map (fun e => (e.1, e.2.1)) = fs.map (fun e => (e.1, e.2.1)))
    (hnd : KeysND es) : KeysND fs := by
  have h1 : (es.map (fun e => (e.1, e.2.1))).Pairwise (fun p q => sameUn p q = false) := by
    exact List.Pairwise.map _ (fun a b hab => hab) hnd
  rw [h] at h1
  exact List.pairwise_map.mp h1

theorem keysND_bumpWeight {es : List EdgeEntry} (a b : String) (hnd : KeysND es) :
    KeysND (bumpWeight es a b) :=
  keysND_of_keys_eq (bumpWeight_keys es a b).symm hnd

theorem keysND_addEdge {G : Graph} (a b : String) (hnd : KeysND G.edges) :
    KeysND (addEdge G a b).edges := by
  unfold addEdge
  by_cases h : hasEdge G a b = true
  · rw [if_pos h]
    exact keysND_bumpWeight a b hnd
  · rw [if_neg h]
    show KeysND ((addNodeIfAbsent (addNodeIfAbsent G a) b).edges ++ [(a, b, 1)])
    rw [edges_addNodeIfAbsent, edges_addNodeIfAbsent]
    rw [KeysND, List.pairwise_append]
    refine ⟨hnd, List.pairwise_singleton _ _, ?_⟩
    intro e he f hf
    have hf' : f = ((a, b, 1) : EdgeEntry) := by simpa using hf
    subst hf'
    have : ¬matchesEdge e a b = true := by
      intro hc
      exact h (List.any_eq_true.mpr ⟨e, he, hc⟩)
    rw [matchesEdge_eq_sameUn] at this
    cases hq : sameUn (e.1, e.2.1) (a, b) with
    | false => rfl
    | true => exact absurd hq this

theorem weightBetween_eq_zero {es : List EdgeEntry} {x y : String}
    (h : ∀ f ∈ es, sameUn (f.1, f.2.1) (x, y) = false) :
    weightBetween es x y = 0 := by
  induction es with
  | nil => rfl
  | cons e es ih =>
    rw [weightBetween_cons]
    have he := h e (List.mem_cons_self e es)
    rw [matchesEdge_eq_sameUn, he]
    simp only [Bool.false_eq_true, if_false]
    rw [ih (fun f hf => h f (List.mem_cons_of_mem _ hf))]

theorem sameUn_false_symm {p q : String × String} (h : sameUn p q = false) :
    sameUn q p = false := by
  cases hq : sameUn q p with
  | false => rfl
  | true => rw [sameUn_symm hq] at h; cases h

/-- With unique unordered keys, each stored entry's weight is exactly the
accumulated weight of its unordered pair. -/
theorem entry_weight_eq {es : List EdgeEntry} (hnd : KeysND es) {e : EdgeEntry}
    (he : e ∈ es) : weightBetween es e.1 e.2.1 = e.2.2 := by
  induction es with
  | nil => cases he
  | cons f es ih =>
    rw [KeysND, List.pairwise_cons] at hnd
    rcases List.mem_cons.mp he with he | he
    · subst he
      rw [weightBetween_cons, if_pos (matchesEdge_self e)]
      have hz : weightBetween es e.1 e.2.1 = 0 :=
        weightBetween_eq_zero (fun g hg => sameUn_false_symm (hnd.1 g hg))
      rw [hz]; omega
    · rw [weightBetween_cons]
      have hne : sameUn (f.1, f.2.1) (e.1, e.2.1) = false := hnd.1 e he
      rw [matchesEdge_eq_sameUn, hne]
      simp only [Bool.false_eq_true, if_false]
      rw [ih hnd.2 he]; omega

/-! ## Helper lemmas: the pair folds of the row loop -/

theorem weightBetween_foldl_addPair (ps : List ((String × String) × (String × String)))
    (G : Graph) (x y : String) :
    weightBetween ((ps.foldl addPair G).edges) x y =
      weightBetween G.edges x y + ps.countP (fun p => sameUn (idPair p) (x, y)) := by
  induction ps generalizing G with
  | nil => simp
  | cons p ps ih =>
    rw [List.foldl_cons, ih (addPair G p), List.countP_cons]
    have h1 : weightBetween (addPair G p).edges x y =
        weightBetween G.edges x y + (if sameUn (idPair p) (x, y) then 1 else 0) :=
      weightBetween_addEdge G _ _ x y
    rw [h1]
    by_cases hs : sameUn (idPair p) (x, y) = true <;> simp [hs] <;> try omega

theorem weightBetween_edgePhase (T : Table) (F : List String) (G : Graph) (x y : String) :
    weightBetween ((edgePhase T F G).edges) x y =
      weightBetween G.edges x y +
        (T.map (fun r => (pairs (rowItems F r)).countP (fun p => sameUn (idPair p) (x, y)))).sum := by
  induction T generalizing G with
  | nil => simp [edgePhase]
  | cons r T ih =>
    show weightBetween ((edgePhase T F (addRow F G r)).edges) x y = _
    rw [ih (addRow F G r)]
    unfold addRow
    rw [weightBetween_foldl_addPair]
    simp only [List.map_cons, List.sum_cons]
    omega

theorem totalWeight_foldl_addPair (ps : List ((String × String) × (String × String)))
    (G : Graph) :
    totalWeight (ps.foldl addPair G) = totalWeight G + ps.length := by
  induction ps generalizing G with
  | nil => simp
  | cons p ps ih =>
    rw [List.foldl_cons, ih (addPair G p)]
    have h1 : totalWeight (addPair G p) = totalWeight G + 1 := totalWeight_addEdge G _ _
    rw [h1, List.length_cons]; omega

theorem totalWeight_edgePhase (T : Table) (F : List String) (G : Graph) :
    totalWeight (edgePhase T F G) =
      totalWeight G + (T.map (fun r => (pairs (rowItems F r)).length)).sum := by
  induction T generalizing G with
  | nil => simp [edgePhase]
  | cons r T ih =>
    show totalWeight (edgePhase T F (addRow F G r)) = _
    rw [ih (addRow F G r)]
    unfold addRow
    rw [totalWeight_foldl_addPair]
    simp only [List.map_cons, List.sum_cons]
    omega

/-! ## Helper lemmas: `pairs` (2-combinations) -/

theorem pairs_map {α β : Type} (f : α → β) (l : List α) :
    pairs (l.map f) = (pairs l).map (fun p => (f p.1, f p.2)) := by
  induction l with
  | nil => rfl
  | cons x l ih =>
    simp only [List.map_cons, pairs, ih, List.map_append, List.map_map]
    simp [Function.comp]

theorem mem_of_mem_pairs {α : Type} {l : List α} {p : α × α} (h : p ∈ pairs l) :
    p.1 ∈ l ∧ p.2 ∈ l := by
  induction l with
  | nil => cases h
  | cons x l ih =>
    rcases List.mem_append.mp h with h | h
    · obtain ⟨y, hy, hp⟩ := List.mem_map.mp h
      subst hp
      exact ⟨List.mem_cons_self x l, List.mem_cons_of_mem _ hy⟩
    · obtain ⟨h1, h2⟩ := ih h
      exact ⟨List.mem_cons_of_mem _ h1, List.mem_cons_of_mem _ h2⟩

theorem ne_of_mem_pairs {α : Type} {l : List α} (hl : l.Nodup) {p : α × α}
    (h : p ∈ pairs l) : p.1 ≠ p.2 := by
  induction l with
  | nil => cases h
  | cons x l ih =>
    rw [List.nodup_cons] at hl
    rcases List.mem_append.mp h with h | h
    · obtain ⟨y, hy, hp⟩ := List.mem_map.mp h
      subst hp
      intro hc
      exact hl.1 (by rw [show x = y from hc]; exact hy)
    · exact ih hl.2 h

theorem length_pairs {α : Type} (l : List α) : (pairs l).length = l.length.choose 2 := by
  induction l with
  | nil => rfl
  | cons x l ih =>
    simp only [pairs, List.length_append, List.length_map, ih, List.length_cons]
    rw [Nat.choose_succ_succ, Nat.choose_one_right]

theorem countP_beq_of_nodup {l : List String} (hl : l.Nodup) (c : String) :
    l.countP (fun w => w == c) = if c ∈ l then 1 else 0 := by
  have h0 : l.countP (fun w => w == c) = l.count c := rfl
  rw [h0]
  by_cases hc : c ∈ l
  · rw [if_pos hc]
    exact List.count_eq_one_of_mem hl hc
  · rw [if_neg hc]
    exact List.count_eq_zero_of_not_mem hc

/-- Over a duplicate-free list, the 2-combinations contain each unordered
pair `{x, y}` of distinct members exactly once. -/
theorem countP_pairs_nodup {l : List String} (hl : l.Nodup) (x y : String) :
    (pairs l).countP (fun p => sameUn p (x, y)) =
      if x ∈ l ∧ y ∈ l ∧ x ≠ y then 1 else 0 := by
  induction l with
  | nil => simp [pairs]
  | cons z l ih =>
    rw [List.nodup_cons] at hl
    show ((l.map (fun w => (z, w)) ++ pairs l).countP (fun p => sameUn p (x, y))) = _
    rw [List.countP_append, List.countP_map, ih hl.2]
    by_cases hzx : z = x
    · subst hzx
      by_cases hzy : z = y
      · subst hzy
        have h1 : l.countP ((fun p => sameUn p (z, z)) ∘ (fun w => (z, w))) =
            l.countP (fun w => w == z) := by
          apply List.countP_congr
          intro w _
          show ((z == z && w == z) || (z == z && w == z)) = true ↔ (w == z) = true
          simp
        rw [h1, countP_beq_of_nodup hl.2]
        simp [hl.1]
      · have h1 : l.countP ((fun p => sameUn p (z, y)) ∘ (fun w => (z, w))) =
            l.countP (fun w => w == y) := by
          apply List.countP_congr
          intro w _
          show ((z == z && w == y) || (z == y && w == z)) = true ↔ (w == y) = true
          simp [hzy]
        rw [h1, countP_beq_of_nodup hl.2]
        have hzy' : ¬ y = z := fun hc => hzy hc.symm
        by_cases hyl : y ∈ l
        · simp [List.mem_cons, hl.1, hyl, hzy, hzy']
        · simp [List.mem_cons, hl.1, hyl, hzy, hzy']
    · by_cases hzy : z = y
      · subst hzy
        have h1 : l.countP ((fun p => sameUn p (x, z)) ∘ (fun w => (z, w))) =
            l.countP (fun w => w == x) := by
          apply List.countP_congr
          intro w _
          show ((z == x && w == z) || (z == z && w == x)) = true ↔ (w == x) = true
          simp [hzx]
        rw [h1, countP_beq_of_nodup hl.2]
        have hzx' : ¬ x = z := fun hc => hzx hc.symm
        by_cases hxl : x ∈ l
        · simp [List.mem_cons, hl.1, hxl, hzx, hzx']
        · simp [List.mem_cons, hl.1, hxl, hzx, hzx']
      · have h1 : l.countP ((fun p => sameUn p (x, y)) ∘ (fun w => (z, w))) = 0 := by
          rw [List.countP_eq_zero]
          intro w _
          show ¬((z == x && w == y) || (z == y && w == x)) = true
          simp [hzx, hzy]
        rw [h1]
        have hx' : ¬ x = z := fun hc => hzx hc.symm
        have hy' : ¬ y = z := fun hc => hzy hc.symm
        simp [List.mem_cons, hx', hy']

/-! ## Helper lemmas: row items -/

theorem mem_rowItems {F : List String} {r : Row} {c v : String} :
    (c, v) ∈ rowItems F r ↔ c ∈ F ∧ r c = some v := by
  unfold rowItems
  rw [List.mem_filterMap]
  constructor
  · rintro ⟨c', hc', hv⟩
    rw [Option.map_eq_some'] at hv
    obtain ⟨w, hw, hpair⟩ := hv
    cases hpair
    exact ⟨hc', hw⟩
  · rintro ⟨hc, hr⟩
    exact ⟨c, hc, by rw [hr]; rfl⟩

theorem mem_colVals {T : Table} {c v : String} :
    v ∈ colVals T c ↔ occursIn T c v := by
  unfold colVals occursIn
  rw [List.mem_filterMap]

theorem rowItems_fst_sublist (F : List String) (r : Row) :
    List.Sublist ((rowItems F r).map Prod.fst) F := by
  induction F with
  | nil => simp [rowItems]
  | cons c F ih =>
    unfold rowItems
    rw [List.filterMap_cons]
    rcases h : r c with _ | v
    · exact List.Sublist.cons c ih
    · simp only [Option.map_some', List.map_cons]
      exact List.Sublist.cons₂ c ih

theorem rowItems_nodup {F : List String} (hF : F.Nodup) (r : Row) :
    (rowItems F r).Nodup :=
  List.Nodup.of_map Prod.fst (List.Sublist.nodup (rowItems_fst_sublist F r) hF)

theorem mem_rowIds {F : List String} {r : Row} {u : String} :
    u ∈ rowIds F r ↔ ∃ c v, (c, v) ∈ rowItems F r ∧ u = node_id c v := by
  unfold rowIds
  rw [List.mem_map]
  constructor
  · rintro ⟨⟨c, v⟩, hm, hu⟩
    exact ⟨c, v, hm, hu.symm⟩
  · rintro ⟨c, v, hm, hu⟩
    exact ⟨(c, v), hm, hu.symm⟩

/-- Under the no-collision side condition, a row's node ids are distinct. -/
theorem rowIds_nodup {F : List String} {T : Table} (hF : F.Nodup) (hinj : pairInj F T)
    {r : Row} (hr : r ∈ T) : (rowIds F r).Nodup := by
  apply List.Nodup.map_on _ (rowItems_nodup hF r)
  rintro ⟨c1, v1⟩ h1 ⟨c2, v2⟩ h2 heq
  rw [mem_rowItems] at h1 h2
  have hv1 : v1 ∈ colVals T c1 := mem_colVals.mpr ⟨r, hr, h1.2⟩
  have hv2 : v2 ∈ colVals T c2 := mem_colVals.mpr ⟨r, hr, h2.2⟩
  obtain ⟨hc, hv⟩ := hinj c1 h1.1 v1 hv1 c2 h2.1 v2 hv2 heq
  rw [hc, hv]

/-! ## Helper lemmas: the node set -/

/-- The node ids of a graph, in insertion order. -/
def nodeIds (G : Graph) : List String :=
  G.nodes.map (fun p => p.1)

theorem mem_firstDedup {l : List String} {x : String} : x ∈ firstDedup l ↔ x ∈ l := by
  have haux : ∀ (l acc : List String),
      x ∈ l.foldl (fun acc v => if v ∈ acc then acc else acc ++ [v]) acc ↔
        x ∈ acc ∨ x ∈ l := by
    intro l
    induction l with
    | nil => intro acc; simp
    | cons v l ih =>
      intro acc
      rw [List.foldl_cons]
      by_cases hv : v ∈ acc
      · rw [if_pos hv, ih acc]
        constructor
        · rintro (h | h)
          · exact .inl h
          · exact .inr (List.mem_cons_of_mem _ h)
        · rintro (h | h)
          · exact .inl h
          · rcases List.mem_cons.mp h with h | h
            · exact .inl (h ▸ hv)
            · exact .inr h
      · rw [if_neg hv, ih (acc ++ [v])]
        rw [List.mem_append, List.mem_singleton, List.mem_cons]
        tauto
  rw [firstDedup, haux]
  simp

theorem mem_uniqueVals {T : Table} {c v : String} :
    v ∈ uniqueVals T c ↔ occursIn T c v := by
  rw [uniqueVals, mem_firstDedup, mem_colVals]

theorem any_beq_eq_mem (G : Graph) (i : String) :
    (G.nodes.any (fun p => p.1 == i)) = true ↔ i ∈ nodeIds G := by
  rw [List.any_eq_true, nodeIds]
  constructor
  · rintro ⟨p, hp, he⟩
    exact List.mem_map.mpr ⟨p, hp, by rw [eq_of_beq he]⟩
  · intro h
    obtain ⟨p, hp, he⟩ := List.mem_map.mp h
    exact ⟨p, hp, by rw [he]; exact beq_self_eq_true i⟩

theorem nodeIds_addNode (G : Graph) (i l c : String) :
    nodeIds (addNode G i l c) = if i ∈ nodeIds G then nodeIds G else nodeIds G ++ [i] := by
  unfold addNode
  by_cases h : i ∈ nodeIds G
  · rw [if_pos ((any_beq_eq_mem G i).mpr h), if_pos h]
    show (G.nodes.map (fun p => if p.1 == i then ((i, some l, some c) : NodeEntry) else p)).map
        (fun p : NodeEntry => p.1) = nodeIds G
    rw [List.map_map, nodeIds]
    apply List.map_congr_left
    intro p _
    show (if p.1 == i then ((i, some l, some c) : NodeEntry) else p).1 = p.1
    by_cases hp : (p.1 == i) = true
    · rw [if_pos hp]
      exact (eq_of_beq hp).symm
    · rw [if_neg hp]
  · rw [if_neg (fun hc => h ((any_beq_eq_mem G i).mp hc)), if_neg h]
    show (G.nodes ++ [(i, some l, some c)]).map (fun p : NodeEntry => p.1) =
      nodeIds G ++ [i]
    rw [List.map_append, nodeIds]
    rfl

theorem mem_nodeIds_addNode {G : Graph} {x : String} (i l c : String) :
    x ∈ nodeIds (addNode G i l c) ↔ x ∈ nodeIds G ∨ x = i := by
  rw [nodeIds_addNode]
  by_cases h : i ∈ nodeIds G
  · rw [if_pos h]
    constructor
    · exact .inl
    · rintro (hx | hx)
      · exact hx
      · exact hx ▸ h
  · rw [if_neg h, List.mem_append, List.mem_singleton]

theorem nodup_nodeIds_addNode {G : Graph} (hnd : (nodeIds G).Nodup) (i l c : String) :
    (nodeIds (addNode G i l c)).Nodup := by
  rw [nodeIds_addNode]
  by_cases h : i ∈ nodeIds G
  · rw [if_pos h]; exact hnd
  · rw [if_neg h]
    rw [List.nodup_append]
    exact ⟨hnd, List.nodup_singleton i, by simpa using fun hc => h hc⟩

theorem mem_nodes_addNode {G : Graph} {p : NodeEntry} (i l c : String)
    (hp : p ∈ (addNode G i l c).nodes) : p ∈ G.nodes ∨ p = (i, some l, some c) := by
  unfold addNode at hp
  split at hp
  · obtain ⟨q, hq, hpq⟩ := List.mem_map.mp hp
    by_cases hb : q.1 == i
    · rw [if_pos hb] at hpq
      exact .inr hpq.symm
    · rw [if_neg hb] at hpq
      exact .inl (hpq ▸ hq)
  · rcases List.mem_append.mp hp with h | h
    · exact .inl h
    · exact .inr (List.mem_singleton.mp h)

theorem nodeIds_addNodeIfAbsent (G : Graph) (i : String) :
    nodeIds (addNodeIfAbsent G i) = if i ∈ nodeIds G then nodeIds G else nodeIds G ++ [i] := by
  unfold addNodeIfAbsent
  by_cases h : i ∈ nodeIds G
  · rw [if_pos ((any_beq_eq_mem G i).mpr h), if_pos h]
  · rw [if_neg (fun hc => h ((any_beq_eq_mem G i).mp hc)), if_neg h]
    show (G.nodes ++ [(i, none, none)]).map (fun p : NodeEntry => p.1) =
      nodeIds G ++ [i]
    rw [List.map_append, nodeIds]
    rfl

theorem addNodeIfAbsent_of_mem {G : Graph} {i : String} (h : i ∈ nodeIds G) :
    addNodeIfAbsent G i = G := by
  unfold addNodeIfAbsent
  rw [if_pos ((any_beq_eq_mem G i).mpr h)]

theorem mem_nodeIds_addNodeIfAbsent {G : Graph} {x : String} (i : String) :
    x ∈ nodeIds (addNodeIfAbsent G i) ↔ x ∈ nodeIds G ∨ x = i := by
  rw [nodeIds_addNodeIfAbsent]
  by_cases h : i ∈ nodeIds G
  · rw [if_pos h]
    constructor
    · exact .inl
    · rintro (hx | hx)
      · exact hx
      · exact hx ▸ h
  · rw [if_neg h, List.mem_append, List.mem_singleton]

theorem self_mem_addNodeIfAbsent (G : Graph) (i : String) :
    i ∈ nodeIds (addNodeIfAbsent G i) := by
  rw [mem_nodeIds_addNodeIfAbsent]
  exact .inr rfl

theorem nodup_nodeIds_addNodeIfAbsent {G : Graph} (hnd : (nodeIds G).Nodup) (i : String) :
    (nodeIds (addNodeIfAbsent G i)).Nodup := by
  rw [nodeIds_addNodeIfAbsent]
  by_cases h : i ∈ nodeIds G
  · rw [if_pos h]; exact hnd
  · rw [if_neg h]
    rw [List.nodup_append]
    exact ⟨hnd, List.nodup_singleton i, by simpa using fun hc => h hc⟩

theorem mem_nodeIds_addEdge {G : Graph} {x : String} (a b : String)
    (h : x ∈ nodeIds G) : x ∈ nodeIds (addEdge G a b) := by
  unfold addEdge
  split
  · exact h
  · show x ∈ nodeIds (addNodeIfAbsent (addNodeIfAbsent G a) b)
    rw [mem_nodeIds_addNodeIfAbsent, mem_nodeIds_addNodeIfAbsent]
    exact .inl (.inl h)

theorem edges_addNode (G : Graph) (i l c : String) : (addNode G i l c).edges = G.edges := by
  unfold addNode; split <;> rfl

/-- Structural well-formedness maintained by every builder operation: node
ids are duplicate-free and every edge endpoint is a node. -/
def WF (G : Graph) : Prop :=
  (nodeIds G).Nodup ∧ ∀ e ∈ G.edges, e.1 ∈ nodeIds G ∧ e.2.1 ∈ nodeIds G

theorem WF_empty : WF Graph.empty :=
  ⟨List.nodup_nil, fun e he => absurd he (List.not_mem_nil e)⟩

theorem WF_addNode {G : Graph} (h : WF G) (i l c : String) : WF (addNode G i l c) := by
  refine ⟨nodup_nodeIds_addNode h.1 i l c, fun e he => ?_⟩
  rw [edges_addNode] at he
  obtain ⟨h1, h2⟩ := h.2 e he
  rw [mem_nodeIds_addNode, mem_nodeIds_addNode]
  exact ⟨.inl h1, .inl h2⟩

theorem nodes_addNodeIfAbsent_superset {G : Graph} {x : String} (i : String)
    (h : x ∈ nodeIds G) : x ∈ nodeIds (addNodeIfAbsent G i) := by
  rw [mem_nodeIds_addNodeIfAbsent]
  exact .inl h

theorem WF_addEdge {G : Graph} (h : WF G) (a b : String) : WF (addEdge G a b) := by
  by_cases hh : hasEdge G a b = true
  · unfold addEdge
    rw [if_pos hh]
    refine ⟨h.1, fun e' he' => ?_⟩
    obtain ⟨e, he, hk1, hk2⟩ := mem_bumpWeight G.edges a b he'
    obtain ⟨h1, h2⟩ := h.2 e he
    rw [hk1, hk2]
    exact ⟨h1, h2⟩
  · unfold addEdge
    rw [if_neg hh]
    show WF { addNodeIfAbsent (addNodeIfAbsent G a) b with
      edges := (addNodeIfAbsent (addNodeIfAbsent G a) b).edges ++ [(a, b, 1)] }
    have hnd : (nodeIds (addNodeIfAbsent (addNodeIfAbsent G a) b)).Nodup :=
      nodup_nodeIds_addNodeIfAbsent (nodup_nodeIds_addNodeIfAbsent h.1 a) b
    have hmem : ∀ x, x ∈ nodeIds G →
        x ∈ nodeIds (addNodeIfAbsent (addNodeIfAbsent G a) b) := fun x hx =>
      nodes_addNodeIfAbsent_superset b (nodes_addNodeIfAbsent_superset a hx)
    have hA : a ∈ nodeIds (addNodeIfAbsent (addNodeIfAbsent G a) b) :=
      nodes_addNodeIfAbsent_superset b (self_mem_addNodeIfAbsent G a)
    have hB : b ∈ nodeIds (addNodeIfAbsent (addNodeIfAbsent G a) b) :=
      self_mem_addNodeIfAbsent (addNodeIfAbsent G a) b
    refine ⟨hnd, fun e he => ?_⟩
    rw [edges_addNodeIfAbsent, edges_addNodeIfAbsent] at he
    rcases List.mem_append.mp he with he | he
    · obtain ⟨h1, h2⟩ := h.2 e he
      exact ⟨hmem _ h1, hmem _ h2⟩
    · rw [List.mem_singleton] at he
      subst he
      exact ⟨hA, hB⟩

theorem WF_addPair {G : Graph} (h : WF G) (p : (String × String) × (String × String)) :
    WF (addPair G p) :=
  WF_addEdge h _ _

theorem WF_foldl_addPair {G : Graph} (h : WF G)
    (ps : List ((String × String) × (String × String))) : WF (ps.foldl addPair G) := by
  induction ps generalizing G with
  | nil => exact h
  | cons p ps ih => exact ih (WF_addPair h p)

theorem WF_edgePhase {G : Graph} (h : WF G) (T : Table) (F : List String) :
    WF (edgePhase T F G) := by
  induction T generalizing G with
  | nil => exact h
  | cons r T ih => exact ih (WF_foldl_addPair h _)

theorem WF_addColNodes {G : Graph} (h : WF G) (T : Table) (c : String) :
    WF (addColNodes T G c) := by
  unfold addColNodes
  generalize uniqueVals T c = vs
  induction vs generalizing G with
  | nil => exact h
  | cons v vs ih => exact ih (WF_addNode h _ _ _)

theorem WF_nodePhase (T : Table) (F : List String) : WF (nodePhase T F) := by
  unfold nodePhase
  generalize hG : Graph.empty = G0
  have h0 : WF G0 := hG ▸ WF_empty
  clear hG
  induction F generalizing G0 with
  | nil => exact h0
  | cons c F ih => exact ih _ (WF_addColNodes h0 T c)

theorem edges_foldl_addNode (vs : List String) (G : Graph) (c : String) :
    ((vs.foldl (fun g v => addNode g (node_id c v) v c) G).edges) = G.edges := by
  induction vs generalizing G with
  | nil => rfl
  | cons v vs ih => rw [List.foldl_cons, ih, edges_addNode]

theorem edges_addColNodes (T : Table) (G : Graph) (c : String) :
    (addColNodes T G c).edges = G.edges :=
  edges_foldl_addNode _ G c

theorem edges_nodePhase (T : Table) (F : List String) : (nodePhase T F).edges = [] := by
  unfold nodePhase
  generalize hG : Graph.empty = G0
  have h0 : G0.edges = [] := by rw [← hG]; rfl
  clear hG
  induction F generalizing G0 with
  | nil => exact h0
  | cons c F ih => exact ih _ (by rw [edges_addColNodes]; exact h0)


/-! ## Helper lemmas: the `min_count` filter -/

theorem filterGraph_of_le {G : Graph} {k : Nat} (h : ¬1 < k) : filterGraph G k = G := by
  unfold filterGraph
  rw [if_neg h]

theorem filterGraph_edges_of_lt {G : Graph} {k : Nat} (h : 1 < k) :
    (filterGraph G k).edges = G.edges.filter (fun e => !(e.2.2 < k)) := by
  unfold filterGraph
  rw [if_pos h]

theorem filterGraph_nodes_of_lt {G : Graph} {k : Nat} (h : 1 < k) :
    (filterGraph G k).nodes = G.nodes.filter
      (fun p => (G.edges.filter (fun e => !(e.2.2 < k))).any (fun e => incident e p.1)) := by
  unfold filterGraph
  rw [if_pos h]

theorem filterGraph_edges_sublist (G : Graph) (k : Nat) :
    List.Sublist (filterGraph G k).edges G.edges := by
  by_cases h : 1 < k
  · rw [filterGraph_edges_of_lt h]
    exact List.filter_sublist G.edges
  · rw [filterGraph_of_le h]

theorem filterGraph_nodes_sublist (G : Graph) (k : Nat) :
    List.Sublist (filterGraph G k).nodes G.nodes := by
  by_cases h : 1 < k
  · rw [filterGraph_nodes_of_lt h]
    exact List.filter_sublist G.nodes
  · rw [filterGraph_of_le h]

theorem WF_filterGraph {G : Graph} (h : WF G) (k : Nat) : WF (filterGraph G k) := by
  by_cases hk : 1 < k
  · constructor
    · have : List.Sublist (nodeIds (filterGraph G k)) (nodeIds G) :=
        List.Sublist.map _ (filterGraph_nodes_sublist G k)
      exact this.nodup h.1
    · intro e he
      have heG : e ∈ G.edges := (filterGraph_edges_sublist G k).mem he
      rw [filterGraph_edges_of_lt hk] at he
      have hinc1 : incident e e.1 = true := by
        unfold incident
        rw [beq_self_eq_true]
        rfl
      have hinc2 : incident e e.2.1 = true := by
        unfold incident
        rw [beq_self_eq_true]
        exact Bool.or_true _
      obtain ⟨h1, h2⟩ := h.2 e heG
      constructor
      · obtain ⟨p, hp, hpe⟩ := List.mem_map.mp h1
        refine List.mem_map.mpr ⟨p, ?_, hpe⟩
        rw [filterGraph_nodes_of_lt hk]
        refine List.mem_filter.mpr ⟨hp, ?_⟩
        exact List.any_eq_true.mpr ⟨e, he, by rw [hpe]; exact hinc1⟩
      · obtain ⟨p, hp, hpe⟩ := List.mem_map.mp h2
        refine List.mem_map.mpr ⟨p, ?_, hpe⟩
        rw [filterGraph_nodes_of_lt hk]
        refine List.mem_filter.mpr ⟨hp, ?_⟩
        exact List.any_eq_true.mpr ⟨e, he, by rw [hpe]; exact hinc2⟩
  · rw [filterGraph_of_le hk]
    exact h

theorem WF_build (T : Table) (F : List String) (mc : Nat) :
    WF (build_cooccurrence_graph T F mc) :=
  WF_filterGraph (WF_edgePhase (WF_nodePhase T F) T F) mc

/-! ## Helper lemmas: handshake sums -/

theorem sum_map_ite_nodup {l : List String} (hl : l.Nodup) (a : String) (w : Nat) :
    (l.map (fun n => if a = n then w else 0)).sum = if a ∈ l then w else 0 := by
  induction l with
  | nil => simp
  | cons x l ih =>
    rw [List.nodup_cons] at hl
    rw [List.map_cons, List.sum_cons, ih hl.2]
    by_cases hax : a = x
    · subst hax
      rw [if_pos rfl, if_neg hl.1, if_pos (List.mem_cons_self a l)]
      omega
    · rw [if_neg hax]
      by_cases hal : a ∈ l
      · rw [if_pos hal, if_pos (List.mem_cons_of_mem _ hal)]
        omega
      · rw [if_neg hal, if_neg (by
          intro hc
          rcases List.mem_cons.mp hc with hc | hc
          · exact hax hc
          · exact hal hc)]

theorem handshake_lists (ids : List String) (es : List EdgeEntry) (h1 : ids.Nodup)
    (h2 : ∀ e ∈ es, e.1 ∈ ids ∧ e.2.1 ∈ ids) :
    (ids.map (fun n =>
        (es.map (fun e => (if e.1 = n then e.2.2 else 0) + (if e.2.1 = n then e.2.2 else 0))).sum)).sum =
      2 * (es.map (fun e => e.2.2)).sum := by
  induction es with
  | nil => simp
  | cons e es ih =>
    have hsplit : (ids.map (fun n =>
        ((e :: es).map (fun e => (if e.1 = n then e.2.2 else 0) + (if e.2.1 = n then e.2.2 else 0))).sum)).sum =
        (ids.map (fun n => (if e.1 = n then e.2.2 else 0) + (if e.2.1 = n then e.2.2 else 0))).sum +
        (ids.map (fun n =>
          (es.map (fun e => (if e.1 = n then e.2.2 else 0) + (if e.2.1 = n then e.2.2 else 0))).sum)).sum := by
      rw [← List.sum_map_add]
      apply congrArg
      apply List.map_congr_left
      intro n _
      rw [List.map_cons, List.sum_cons]
    rw [hsplit]
    have he := h2 e (List.mem_cons_self e es)
    have hfirst : (ids.map (fun n => (if e.1 = n then e.2.2 else 0) + (if e.2.1 = n then e.2.2 else 0))).sum =
        2 * e.2.2 := by
      rw [List.sum_map_add, sum_map_ite_nodup h1, sum_map_ite_nodup h1,
        if_pos he.1, if_pos he.2]
      omega
    rw [hfirst, ih (fun f hf => h2 f (List.mem_cons_of_mem _ hf))]
    rw [List.map_cons, List.sum_cons]
    ring

/-! ## Helper lemmas: the node phase builds exactly the occurring nodes -/

/-- A node entry that records an occurring (field, value) pair. -/
def GoodNode (T : Table) (F : List String) (p : NodeEntry) : Prop :=
  ∃ c ∈ F, ∃ v, occursIn T c v ∧ p.1 = node_id c v ∧ p.2.1 = some v ∧ p.2.2 = some c

theorem good_foldl_addNode {T : Table} {F : List String} {c : String} (hc : c ∈ F)
    (vs : List String) (hvs : ∀ v ∈ vs, occursIn T c v) (G : Graph)
    (hG : ∀ p ∈ G.nodes, GoodNode T F p) :
    ∀ p ∈ ((vs.foldl (fun g v => addNode g (node_id c v) v c) G).nodes), GoodNode T F p := by
  induction vs generalizing G with
  | nil => exact hG
  | cons v vs ih =>
    rw [List.foldl_cons]
    refine ih (fun w hw => hvs w (List.mem_cons_of_mem _ hw)) _ (fun p hp => ?_)
    rcases mem_nodes_addNode _ _ _ hp with h | h
    · exact hG p h
    · exact ⟨c, hc, v, hvs v (List.mem_cons_self v vs), by rw [h], by rw [h], by rw [h]⟩

theorem good_addColNodes {T : Table} {F : List String} {c : String} (hc : c ∈ F) (G : Graph)
    (hG : ∀ p ∈ G.nodes, GoodNode T F p) :
    ∀ p ∈ (addColNodes T G c).nodes, GoodNode T F p := by
  unfold addColNodes
  exact good_foldl_addNode hc (uniqueVals T c) (fun v hv => mem_uniqueVals.mp hv) G hG

theorem good_nodePhase (T : Table) (F : List String) :
    ∀ p ∈ (nodePhase T F).nodes, GoodNode T F p := by
  unfold nodePhase
  have haux : ∀ (Fs : List String), (∀ c ∈ Fs, c ∈ F) → ∀ (G : Graph),
      (∀ p ∈ G.nodes, GoodNode T F p) →
      ∀ p ∈ ((Fs.foldl (addColNodes T) G).nodes), GoodNode T F p := by
    intro Fs
    induction Fs with
    | nil => intro _ G hG; exact hG
    | cons c Fs ih =>
      intro hFs G hG
      rw [List.foldl_cons]
      exact ih (fun d hd => hFs d (List.mem_cons_of_mem _ hd)) _
        (good_addColNodes (hFs c (List.mem_cons_self c Fs)) G hG)
  exact haux F (fun c hc => hc) Graph.empty (fun p hp => absurd hp (List.not_mem_nil p))

theorem mem_nodeIds_foldl_addNode {c x : String} (vs : List String) (G : Graph)
    (h : x ∈ nodeIds G) :
    x ∈ nodeIds (vs.foldl (fun g v => addNode g (node_id c v) v c) G) := by
  induction vs generalizing G with
  | nil => exact h
  | cons v vs ih =>
    rw [List.foldl_cons]
    exact ih _ ((mem_nodeIds_addNode _ _ _).mpr (.inl h))

theorem mem_nodeIds_addColNodes_persist {T : Table} {c x : String} {G : Graph}
    (h : x ∈ nodeIds G) : x ∈ nodeIds (addColNodes T G c) :=
  mem_nodeIds_foldl_addNode _ G h

theorem mem_nodeIds_addColNodes_self {T : Table} {c v : String} (G : Graph)
    (hv : v ∈ uniqueVals T c) : node_id c v ∈ nodeIds (addColNodes T G c) := by
  unfold addColNodes
  have haux : ∀ (vs : List String) (G : Graph), v ∈ vs →
      node_id c v ∈ nodeIds (vs.foldl (fun g v => addNode g (node_id c v) v c) G) := by
    intro vs
    induction vs with
    | nil => intro G h; cases h
    | cons w vs ih =>
      intro G h
      rw [List.foldl_cons]
      rcases List.mem_cons.mp h with h | h
      · subst h
        exact mem_nodeIds_foldl_addNode vs _ ((mem_nodeIds_addNode _ _ _).mpr (.inr rfl))
      · exact ih _ h
  exact haux (uniqueVals T c) G hv

theorem mem_nodeIds_foldl_addColNodes {T : Table} {x : String} (Fs : List String) (G : Graph)
    (h : x ∈ nodeIds G) : x ∈ nodeIds (Fs.foldl (addColNodes T) G) := by
  induction Fs generalizing G with
  | nil => exact h
  | cons c Fs ih =>
    rw [List.foldl_cons]
    exact ih _ (mem_nodeIds_addColNodes_persist h)

theorem nodePhase_mem_ids {T : Table} {F : List String} {c v : String} (hc : c ∈ F)
    (hocc : occursIn T c v) : node_id c v ∈ nodeIds (nodePhase T F) := by
  unfold nodePhase
  have haux : ∀ (Fs : List String) (G : Graph), c ∈ Fs →
      node_id c v ∈ nodeIds (Fs.foldl (addColNodes T) G) := by
    intro Fs
    induction Fs with
    | nil => intro G h; cases h
    | cons d Fs ih =>
      intro G h
      rw [List.foldl_cons]
      rcases List.mem_cons.mp h with h | h
      · subst h
        exact mem_nodeIds_foldl_addColNodes Fs _
          (mem_nodeIds_addColNodes_self G (mem_uniqueVals.mpr hocc))
      · exact ih _ h
  exact haux F Graph.empty hc

/-! ## Helper lemmas: the edge phase leaves the node list unchanged -/

theorem addEdge_nodes_of_mem {G : Graph} {a b : String} (ha : a ∈ nodeIds G)
    (hb : b ∈ nodeIds G) : (addEdge G a b).nodes = G.nodes := by
  unfold addEdge
  split
  · rfl
  · show (addNodeIfAbsent (addNodeIfAbsent G a) b).nodes = G.nodes
    rw [addNodeIfAbsent_of_mem ha]
    rw [addNodeIfAbsent_of_mem hb]

theorem foldl_addPair_nodes_of_mem {G : Graph}
    (ps : List ((String × String) × (String × String)))
    (h : ∀ q ∈ ps, node_id q.1.1 q.1.2 ∈ nodeIds G ∧ node_id q.2.1 q.2.2 ∈ nodeIds G) :
    (ps.foldl addPair G).nodes = G.nodes := by
  induction ps generalizing G with
  | nil => rfl
  | cons q ps ih =>
    rw [List.foldl_cons]
    have hq := h q (List.mem_cons_self q ps)
    have h1 : (addPair G q).nodes = G.nodes := addEdge_nodes_of_mem hq.1 hq.2
    have h1' : nodeIds (addPair G q) = nodeIds G := by rw [nodeIds, h1, nodeIds]
    rw [ih (fun q' hq' => by
      rw [h1']
      exact h q' (List.mem_cons_of_mem _ hq')), h1]

theorem edgePhase_nodes_of_mem {F : List String} (T' : List Row) (G : Graph)
    (h : ∀ r ∈ T', ∀ q ∈ pairs (rowItems F r),
      node_id q.1.1 q.1.2 ∈ nodeIds G ∧ node_id q.2.1 q.2.2 ∈ nodeIds G) :
    (edgePhase T' F G).nodes = G.nodes := by
  induction T' generalizing G with
  | nil => rfl
  | cons r T' ih =>
    show (edgePhase T' F (addRow F G r)).nodes = G.nodes
    have h1 : (addRow F G r).nodes = G.nodes :=
      foldl_addPair_nodes_of_mem _ (h r (List.mem_cons_self r T'))
    have h1' : nodeIds (addRow F G r) = nodeIds G := by rw [nodeIds, h1, nodeIds]
    rw [ih (addRow F G r) (fun r' hr' q hq => by
      rw [h1']
      exact h r' (List.mem_cons_of_mem _ hr') q hq), h1]

theorem pair_endpoints_present {T : Table} {F : List String} {r : Row} (hr : r ∈ T)
    {q : (String × String) × (String × String)} (hq : q ∈ pairs (rowItems F r)) :
    node_id q.1.1 q.1.2 ∈ nodeIds (nodePhase T F) ∧
      node_id q.2.1 q.2.2 ∈ nodeIds (nodePhase T F) := by
  obtain ⟨h1, h2⟩ := mem_of_mem_pairs hq
  obtain ⟨hc1, hv1⟩ := mem_rowItems.mp h1
  obtain ⟨hc2, hv2⟩ := mem_rowItems.mp h2
  exact ⟨nodePhase_mem_ids hc1 ⟨r, hr, hv1⟩, nodePhase_mem_ids hc2 ⟨r, hr, hv2⟩⟩

theorem edgePhase_nodePhase_nodes (T : Table) (F : List String) :
    (edgePhase T F (nodePhase T F)).nodes = (nodePhase T F).nodes :=
  edgePhase_nodes_of_mem T (nodePhase T F)
    (fun r hr q hq => pair_endpoints_present hr hq)

/-! ## Helper lemmas: no self-edges and unique keys in the built graph -/

theorem noSelf_addEdge {G : Graph} {a b : String}
    (h : ∀ e ∈ G.edges, e.1 ≠ e.2.1) (hab : a ≠ b) :
    ∀ e ∈ (addEdge G a b).edges, e.1 ≠ e.2.1 := by
  intro e he
  by_cases hh : hasEdge G a b = true
  · rw [edges_addEdge_pos G a b hh] at he
    obtain ⟨f, hf, hk1, hk2⟩ := mem_bumpWeight G.edges a b he
    rw [hk1, hk2]
    exact h f hf
  · rw [edges_addEdge_neg G a b hh] at he
    rcases List.mem_append.mp he with he | he
    · exact h e he
    · rw [List.mem_singleton] at he
      subst he
      exact hab

/-- Under the side conditions, every 2-combination of a row's items has two
distinct node ids. -/
theorem pair_ids_ne {T : Table} {F : List String} (hF : F.Nodup) (hinj : pairInj F T)
    {r : Row} (hr : r ∈ T) {q : (String × String) × (String × String)}
    (hq : q ∈ pairs (rowItems F r)) :
    node_id q.1.1 q.1.2 ≠ node_id q.2.1 q.2.2 := by
  have hmem : (node_id q.1.1 q.1.2, node_id q.2.1 q.2.2) ∈ pairs (rowIds F r) := by
    rw [rowIds, pairs_map]
    exact List.mem_map.mpr ⟨q, hq, rfl⟩
  exact ne_of_mem_pairs (rowIds_nodup hF hinj hr) hmem

theorem noSelf_foldl_addPair {G : Graph}
    (ps : List ((String × String) × (String × String)))
    (hps : ∀ q ∈ ps, node_id q.1.1 q.1.2 ≠ node_id q.2.1 q.2.2)
    (h : ∀ e ∈ G.edges, e.1 ≠ e.2.1) :
    ∀ e ∈ (ps.foldl addPair G).edges, e.1 ≠ e.2.1 := by
  induction ps generalizing G with
  | nil => exact h
  | cons q ps ih =>
    rw [List.foldl_cons]
    exact ih (fun q' hq' => hps q' (List.mem_cons_of_mem _ hq'))
      (noSelf_addEdge h (hps q (List.mem_cons_self q ps)))

theorem noSelf_edgePhase {T : Table} {F : List String} (hF : F.Nodup) (hinj : pairInj F T)
    (T' : List Row) (hT' : ∀ r ∈ T', r ∈ T) (G : Graph)
    (h : ∀ e ∈ G.edges, e.1 ≠ e.2.1) :
    ∀ e ∈ (edgePhase T' F G).edges, e.1 ≠ e.2.1 := by
  induction T' generalizing G with
  | nil => exact h
  | cons r T' ih =>
    show ∀ e ∈ (edgePhase T' F (addRow F G r)).edges, e.1 ≠ e.2.1
    refine ih (fun r' hr' => hT' r' (List.mem_cons_of_mem _ hr')) _ ?_
    exact noSelf_foldl_addPair _
      (fun q hq => pair_ids_ne hF hinj (hT' r (List.mem_cons_self r T')) hq) h

/-- No self-edges in the built graph (under the no-collision conditions). -/
theorem noSelf_build {T : Table} {F : List String} (hF : F.Nodup) (hinj : pairInj F T)
    (mc : Nat) : ∀ e ∈ (build_cooccurrence_graph T F mc).edges, e.1 ≠ e.2.1 := by
  intro e he
  have he' : e ∈ (edgePhase T F (nodePhase T F)).edges :=
    (filterGraph_edges_sublist _ mc).mem he
  refine noSelf_edgePhase hF hinj T (fun r hr => hr) _ ?_ e he'
  rw [edges_nodePhase]
  intro e he
  cases he

theorem keysND_foldl_addPair {G : Graph}
    (ps : List ((String × String) × (String × String))) (h : KeysND G.edges) :
    KeysND ((ps.foldl addPair G).edges) := by
  induction ps generalizing G with
  | nil => exact h
  | cons q ps ih =>
    rw [List.foldl_cons]
    exact ih (keysND_addEdge _ _ h)

theorem keysND_edgePhase {F : List String} (T' : List Row) (G : Graph)
    (h : KeysND G.edges) : KeysND ((edgePhase T' F G).edges) := by
  induction T' generalizing G with
  | nil => exact h
  | cons r T' ih => exact ih _ (keysND_foldl_addPair _ h)

theorem keysND_raw (T : Table) (F : List String) :
    KeysND ((edgePhase T F (nodePhase T F)).edges) := by
  refine keysND_edgePhase T _ ?_
  rw [edges_nodePhase]
  exact keysND_nil

/-! ## Helper lemmas: edge weights are co-occurrence counts -/

theorem sum_map_ite_eq_countP {α : Type} (l : List α) (p : α → Bool) :
    (l.map (fun x => if p x then 1 else 0)).sum = l.countP p := by
  induction l with
  | nil => rfl
  | cons x l ih =>
    rw [List.map_cons, List.sum_cons, ih, List.countP_cons]
    by_cases hx : p x = true
    · rw [if_pos hx]
      omega
    · rw [if_neg hx]
      omega

theorem contains_iff_mem {l : List String} {x : String} : l.contains x = true ↔ x ∈ l := by
  rw [List.contains_eq_any_beq, List.any_eq_true]
  constructor
  · rintro ⟨y, hy, he⟩
    rw [eq_of_beq he]
    exact hy
  · intro h
    exact ⟨x, h, beq_self_eq_true x⟩

/-- The accumulated weight between two distinct ids in the raw built graph is
the number of rows whose items mention both. -/
theorem weightBetween_raw_eq_countCooc {T : Table} {F : List String} (hF : F.Nodup)
    (hinj : pairInj F T) {u v : String} (huv : u ≠ v) :
    weightBetween ((edgePhase T F (nodePhase T F)).edges) u v = countCooc T F u v := by
  rw [weightBetween_edgePhase, edges_nodePhase, weightBetween_nil]
  rw [Nat.zero_add]
  unfold countCooc
  rw [← sum_map_ite_eq_countP]
  have haux : ∀ r ∈ T,
      (pairs (rowItems F r)).countP (fun p => sameUn (idPair p) (u, v)) =
        (if (rowIds F r).contains u && (rowIds F r).contains v then 1 else 0) := by
    intro r hr
    have h1 : (pairs (rowIds F r)).countP (fun p => sameUn p (u, v)) =
        (pairs (rowItems F r)).countP (fun p => sameUn (idPair p) (u, v)) := by
      rw [rowIds, pairs_map, List.countP_map]
      rfl
    rw [← h1, countP_pairs_nodup (rowIds_nodup hF hinj hr) u v]
    by_cases hu : u ∈ rowIds F r
    · by_cases hv : v ∈ rowIds F r
      · rw [if_pos ⟨hu, hv, huv⟩, if_pos]
        rw [contains_iff_mem.mpr hu, contains_iff_mem.mpr hv]
        rfl
      · rw [if_neg (fun hc => hv hc.2.1), if_neg]
        intro hc
        rw [Bool.and_eq_true] at hc
        exact hv (contains_iff_mem.mp hc.2)
    · rw [if_neg (fun hc => hu hc.1), if_neg]
      intro hc
      rw [Bool.and_eq_true] at hc
      exact hu (contains_iff_mem.mp hc.1)
  apply congrArg
  exact List.map_congr_left haux

/-- Every edge of the built graph joins two distinct nodes and carries the
number of records in which its two endpoints co-occur. -/
theorem build_edge_spec {T : Table} {F : List String} (hF : F.Nodup) (hinj : pairInj F T)
    (mc : Nat) : ∀ e ∈ (build_cooccurrence_graph T F mc).edges,
      e.1 ≠ e.2.1 ∧ e.2.2 = countCooc T F e.1 e.2.1 := by
  intro e he
  have hne : e.1 ≠ e.2.1 := noSelf_build hF hinj mc e he
  refine ⟨hne, ?_⟩
  have he' : e ∈ (edgePhase T F (nodePhase T F)).edges :=
    (filterGraph_edges_sublist _ mc).mem he
  have h1 : weightBetween ((edgePhase T F (nodePhase T F)).edges) e.1 e.2.1 = e.2.2 :=
    entry_weight_eq (keysND_raw T F) he'
  rw [← h1, weightBetween_raw_eq_countCooc hF hinj hne]

/-! ## Helper lemmas: weighted degree versus incident edge weights -/

theorem degreeW_list_eq_incident {es : List EdgeEntry} (h : ∀ e ∈ es, e.1 ≠ e.2.1)
    (n : String) :
    (es.map (fun e => (if e.1 = n then e.2.2 else 0) + (if e.2.1 = n then e.2.2 else 0))).sum =
      ((es.filter (fun e => incident e n)).map (fun e => e.2.2)).sum := by
  induction es with
  | nil => rfl
  | cons e es ih =>
    have hne := h e (List.mem_cons_self e es)
    have ih' := ih (fun f hf => h f (List.mem_cons_of_mem _ hf))
    rw [List.map_cons, List.sum_cons, ih', List.filter_cons]
    by_cases h1 : e.1 = n
    · have h2 : ¬e.2.1 = n := fun hc => hne (h1.trans hc.symm)
      rw [if_pos h1, if_neg h2]
      have hinc : incident e n = true := by
        unfold incident
        rw [h1, beq_self_eq_true]
        rfl
      rw [if_pos hinc, List.map_cons, List.sum_cons]
      omega
    · by_cases h2 : e.2.1 = n
      · rw [if_neg h1, if_pos h2]
        have hinc : incident e n = true := by
          unfold incident
          rw [h2, beq_self_eq_true]
          exact Bool.or_true _
        rw [if_pos hinc, List.map_cons, List.sum_cons]
        omega
      · rw [if_neg h1, if_neg h2]
        have hinc : ¬incident e n = true := by
          unfold incident
          simp [h1, h2]
        rw [if_neg hinc]
        omega

theorem degreeW_eq_incident_of_noSelf {G : Graph} (h : ∀ e ∈ G.edges, e.1 ≠ e.2.1)
    (n : String) : degreeW G n = specIncidentWeightSum G n := by
  unfold degreeW specIncidentWeightSum
  exact degreeW_list_eq_incident h n

/-! ## Concrete inputs used by witnesses and counterexamples -/

/-- Row (a1, b1) of the spec's §8 scenario table. -/
def rowA1B1 : Row := fun c => if c = "A" then some "a1" else if c = "B" then some "b1" else none

/-- Row (a1, b2) of the spec's §8 scenario table. -/
def rowA1B2 : Row := fun c => if c = "A" then some "a1" else if c = "B" then some "b2" else none

/-- Row (a2, b1) of the spec's §8 scenario table. -/
def rowA2B1 : Row := fun c => if c = "A" then some "a2" else if c = "B" then some "b1" else none

/-- The spec's §8 scenario table: fields A, B; rows (a1,b1), (a1,b2), (a2,b1). -/
def T0 : Table := [rowA1B1, rowA1B2, rowA2B1]

/-- The §8 scenario's field selection. -/
def F0 : List String := ["A", "B"]

/-- A row whose two distinct (field, value) pairs collide to one node id:
column `"a:"` holds `"x"` and column `"a"` holds `":x"`, and both give
`node_id = "a:::x"`. -/
def rowColl : Row := fun c => if c = "a:" then some "x" else if c = "a" then some ":x" else none

/-- One-row table exhibiting the node-id collision. -/
def Tcol : Table := [rowColl]

/-- Two distinct field names that collide under `node_id`. -/
def Fcol : List String := ["a:", "a"]

/-! ## More aggregation lemmas used by the claims -/

theorem filterGraph_empty (mc : Nat) : filterGraph Graph.empty mc = Graph.empty := by
  by_cases h : 1 < mc
  · unfold filterGraph
    rw [if_pos h]
    rfl
  · exact filterGraph_of_le h

theorem edgePhase_nil_cols (T : Table) (G : Graph) : edgePhase T [] G = G := by
  induction T generalizing G with
  | nil => rfl
  | cons r T ih =>
    show edgePhase T [] (addRow [] G r) = G
    have h : addRow [] G r = G := rfl
    rw [h, ih]

theorem nodePhase_nil_table (F : List String) : nodePhase [] F = Graph.empty := by
  unfold nodePhase
  generalize hG : Graph.empty = G0
  induction F generalizing G0 with
  | nil => rfl
  | cons c F ih =>
    rw [List.foldl_cons]
    have h : addColNodes [] G0 c = G0 := rfl
    rw [h]
    exact ih G0 hG

theorem addRow_single_col (f : String) (G : Graph) (r : Row) : addRow [f] G r = G := by
  unfold addRow
  have h : pairs (rowItems [f] r) = [] := by
    unfold rowItems
    rw [List.filterMap_cons]
    rcases hr : r f with _ | v
    · rfl
    · rfl
  rw [h]
  rfl

theorem edgePhase_single_col (T : Table) (f : String) (G : Graph) :
    edgePhase T [f] G = G := by
  induction T generalizing G with
  | nil => rfl
  | cons r T ih =>
    show edgePhase T [f] (addRow [f] G r) = G
    rw [addRow_single_col, ih]

theorem countP_nodes_eq_one {G : Graph} (hnd : (nodeIds G).Nodup) {x : String}
    (hx : x ∈ nodeIds G) : G.nodes.countP (fun p => p.1 == x) = 1 := by
  have h1 : G.nodes.countP (fun p => p.1 == x) = (nodeIds G).countP (fun y => y == x) := by
    rw [nodeIds, List.countP_map]
    rfl
  rw [h1, countP_beq_of_nodup hnd, if_pos hx]

theorem build_eq_raw (T : Table) (F : List String) :
    build_cooccurrence_graph T F 1 = edgePhase T F (nodePhase T F) := by
  unfold build_cooccurrence_graph
  exact filterGraph_of_le (by omega)

theorem build_nodes_eq_nodePhase (T : Table) (F : List String) :
    (build_cooccurrence_graph T F 1).nodes = (nodePhase T F).nodes := by
  rw [build_eq_raw]
  exact edgePhase_nodePhase_nodes T F

theorem totalWeight_of_edges_nil {G : Graph} (h : G.edges = []) : totalWeight G = 0 := by
  unfold totalWeight
  rw [h]
  rfl

theorem build_nil_table (F : List String) (mc : Nat) :
    build_cooccurrence_graph ([] : Table) F mc = Graph.empty := by
  unfold build_cooccurrence_graph
  rw [nodePhase_nil_table]
  show filterGraph Graph.empty mc = Graph.empty
  exact filterGraph_empty mc

/-! ## Claim theorems -/

/-- Claim C3 counterexample: called with an empty fields list (and a
non-empty table), `build_cooccurrence_graph` does not fail — its embedding is
total, and at this input it returns the empty graph, not an
`InvalidArgument` error. -/
theorem claim3_counterexample : build_cooccurrence_graph T0 [] 1 = Graph.empty := by decide

/-- Claim C3 (amended): build returns the empty graph (raising no error)
when the fields list is empty, for every table and weight floor; and returns
the empty graph on a zero-row table, for every fields list and weight
floor. -/
theorem claim3_amended :
    (∀ (T : Table) (mc : Nat), build_cooccurrence_graph T [] mc = Graph.empty) ∧
      (∀ (F : List String) (mc : Nat), build_cooccurrence_graph ([] : Table) F mc = Graph.empty) := by
  constructor
  · intro T mc
    unfold build_cooccurrence_graph
    rw [show nodePhase T [] = Graph.empty from rfl, edgePhase_nil_cols, filterGraph_empty]
  · intro F mc
    exact build_nil_table F mc

/-- Claim C6 (confirmed): with `min_weight > 1` the built graph keeps only
edges at or above the floor and only nodes with an incident surviving edge;
the post-pass is idempotent at the same floor; and a floor of 2 over a graph
whose edges all weigh 1 empties the graph entirely. -/
theorem claim6_confirmed :
    (∀ (T : Table) (F : List String) (k : Nat), 1 < k →
      (∀ e ∈ (build_cooccurrence_graph T F k).edges, k ≤ e.2.2) ∧
      (∀ p ∈ (build_cooccurrence_graph T F k).nodes,
        ∃ e ∈ (build_cooccurrence_graph T F k).edges, incident e p.1 = true)) ∧
    (∀ (G : Graph) (k : Nat), filterGraph (filterGraph G k) k = filterGraph G k) ∧
    (∀ G : Graph, (∀ e ∈ G.edges, e.2.2 = 1) → filterGraph G 2 = Graph.empty) := by
  refine ⟨?_, ?_, ?_⟩
  · intro T F k hk
    constructor
    · intro e he
      unfold build_cooccurrence_graph at he
      rw [filterGraph_edges_of_lt hk] at he
      have := (List.mem_filter.mp he).2
      simp only [Bool.not_eq_true', decide_eq_false_iff_not, Nat.not_lt] at this
      exact this
    · intro p hp
      unfold build_cooccurrence_graph at hp ⊢
      rw [filterGraph_nodes_of_lt hk] at hp
      have h2 := (List.mem_filter.mp hp).2
      rw [List.any_eq_true] at h2
      obtain ⟨e, he, hinc⟩ := h2
      refine ⟨e, ?_, hinc⟩
      rw [filterGraph_edges_of_lt hk]
      exact he
  · intro G k
    by_cases hk : 1 < k
    · apply Graph.ext
      · rw [filterGraph_nodes_of_lt hk]
        have hE : (filterGraph G k).edges.filter (fun e => !(e.2.2 < k)) =
            (filterGraph G k).edges := by
          apply List.filter_eq_self.mpr
          intro e he
          rw [filterGraph_edges_of_lt hk] at he
          exact (List.mem_filter.mp he).2
        rw [hE]
        apply List.filter_eq_self.mpr
        intro p hp
        rw [filterGraph_nodes_of_lt hk] at hp
        have h2 := (List.mem_filter.mp hp).2
        rw [filterGraph_edges_of_lt hk]
        exact h2
      · rw [filterGraph_edges_of_lt hk]
        apply List.filter_eq_self.mpr
        intro e he
        rw [filterGraph_edges_of_lt hk] at he
        exact (List.mem_filter.mp he).2
    · rw [filterGraph_of_le hk]
  · intro G hw
    have hE : G.edges.filter (fun e => !(e.2.2 < 2)) = [] := by
      apply List.filter_eq_nil_iff.mpr
      intro e he
      rw [hw e he]
      decide
    apply Graph.ext
    · rw [filterGraph_nodes_of_lt (by omega), hE]
      apply List.filter_eq_nil_iff.mpr
      intro p _
      rw [List.any_nil]
      decide
    · rw [filterGraph_edges_of_lt (by omega), hE]
      rfl

/-- Claim C10 (confirmed): building over a single field yields zero edges
(no record can form a pair) and exactly one node per distinct non-missing
value of that field. -/
theorem claim10_confirmed : ∀ (T : Table) (f : String),
    (build_cooccurrence_graph T [f] 1).edges = [] ∧
    (∀ p ∈ (build_cooccurrence_graph T [f] 1).nodes,
      ∃ v, occursIn T f v ∧ p.1 = node_id f v ∧ p.2.1 = some v ∧ p.2.2 = some f) ∧
    (∀ v, occursIn T f v →
      (build_cooccurrence_graph T [f] 1).nodes.countP (fun p => p.1 == node_id f v) = 1) := by
  intro T f
  have hbuild : build_cooccurrence_graph T [f] 1 = nodePhase T [f] := by
    rw [build_eq_raw, edgePhase_single_col]
  refine ⟨?_, ?_, ?_⟩
  · rw [hbuild, edges_nodePhase]
  · intro p hp
    rw [hbuild] at hp
    obtain ⟨c, hc, v, hocc, hid, hlab, hcol⟩ := good_nodePhase T [f] p hp
    rw [List.mem_singleton] at hc
    subst hc
    exact ⟨v, hocc, hid, hlab, hcol⟩
  · intro v hocc
    rw [hbuild]
    exact countP_nodes_eq_one (WF_nodePhase T [f]).1
      (nodePhase_mem_ids (List.mem_singleton.mpr rfl) hocc)

/-- Claim C10 witness at the scenario table with field "A". -/
theorem claim10_witness :
    (build_cooccurrence_graph T0 ["A"] 1).edges = [] ∧
    (∀ p ∈ (build_cooccurrence_graph T0 ["A"] 1).nodes,
      ∃ v, occursIn T0 "A" v ∧ p.1 = node_id "A" v ∧ p.2.1 = some v ∧ p.2.2 = some "A") ∧
    (∀ v, occursIn T0 "A" v →
      (build_cooccurrence_graph T0 ["A"] 1).nodes.countP
        (fun p => p.1 == node_id "A" v) = 1) :=
  claim10_confirmed T0 "A"

/-- Claim C5 (confirmed): every node of the built graph records an occurring
(field, value) pair as its identity and attributes, node ids are unique, and
each occurring (field, value) pair owns exactly one node. -/
theorem claim5_confirmed (T : Table) (F : List String) (hF : F ≠ []) :
    (∀ p ∈ (build_cooccurrence_graph T F 1).nodes, GoodNode T F p) ∧
    (nodeIds (build_cooccurrence_graph T F 1)).Nodup ∧
    (∀ c ∈ F, ∀ v, occursIn T c v →
      (build_cooccurrence_graph T F 1).nodes.countP (fun p => p.1 == node_id c v) = 1) := by
  refine ⟨?_, (WF_build T F 1).1, ?_⟩
  · intro p hp
    rw [build_nodes_eq_nodePhase] at hp
    exact good_nodePhase T F p hp
  · intro c hc v hocc
    have hmem : node_id c v ∈ nodeIds (build_cooccurrence_graph T F 1) := by
      rw [nodeIds, build_nodes_eq_nodePhase]
      exact nodePhase_mem_ids hc hocc
    exact countP_nodes_eq_one (WF_build T F 1).1 hmem

/-- Claim C5 witness at the scenario table. -/
theorem claim5_witness :
    (∀ p ∈ (build_cooccurrence_graph T0 F0 1).nodes, GoodNode T0 F0 p) ∧
    (nodeIds (build_cooccurrence_graph T0 F0 1)).Nodup ∧
    (∀ c ∈ F0, ∀ v, occursIn T0 c v →
      (build_cooccurrence_graph T0 F0 1).nodes.countP
        (fun p => p.1 == node_id c v) = 1) :=
  claim5_confirmed T0 F0 (by decide)

/-- Claim C4 counterexample: with the two distinct fields `"a:"` and `"a"`
and the one-row table where `"a:" = "x"` and `"a" = ":x"`, both (field,
value) pairs produce the node id `"a:::x"`, and the built graph contains a
self-edge — refuting "each between two distinct nodes" and "the built graph
contains no self-edges" as stated for every table and fields list. -/
theorem claim4_counterexample :
    (build_cooccurrence_graph Tcol Fcol 1).edges = [("a:::x", "a:::x", 1)] := by decide

/-- Claim C4 (amended): provided the fields are pairwise distinct and no two
distinct occurring (field, value) pairs collide to one node id (`pairInj`,
true e.g. whenever field names contain no colon), a record with k distinct
non-missing items contributes exactly `C(k, 2)` weight-1 increments — so the
total edge weight is the sum of `C(k, 2)` over records — and every edge of
the built graph joins two distinct nodes and weighs exactly the number of
records in which its two endpoint values co-occur. -/
theorem claim4_amended (T : Table) (F : List String) (mc : Nat) (hF : F.Nodup)
    (hinj : pairInj F T) :
    totalWeight (build_cooccurrence_graph T F 1) =
      (T.map (fun r => ((rowItems F r).length.choose 2))).sum ∧
    (∀ e ∈ (build_cooccurrence_graph T F mc).edges,
      e.1 ≠ e.2.1 ∧ e.2.2 = countCooc T F e.1 e.2.1) := by
  constructor
  · rw [build_eq_raw, totalWeight_edgePhase,
      totalWeight_of_edges_nil (edges_nodePhase T F), Nat.zero_add]
    apply congrArg
    apply List.map_congr_left
    intro r _
    exact length_pairs (rowItems F r)
  · exact build_edge_spec hF hinj mc

/-- Claim C4 witness at the spec's §8 scenario table. -/
theorem claim4_witness :
    (F0.Nodup ∧ pairInj F0 T0) ∧
    (totalWeight (build_cooccurrence_graph T0 F0 1) =
      (T0.map (fun r => ((rowItems F0 r).length.choose 2))).sum ∧
    (∀ e ∈ (build_cooccurrence_graph T0 F0 1).edges,
      e.1 ≠ e.2.1 ∧ e.2.2 = countCooc T0 F0 e.1 e.2.1)) :=
  ⟨⟨by decide, by decide⟩, claim4_amended T0 F0 1 (by decide) (by decide)⟩

/-- Claim C9 counterexample: in the collision-built graph the single edge is
a self-loop, networkx counts it twice in the weighted degree (degree 2), yet
the sum of the weights of the node's incident edges is 1. -/
theorem claim9_counterexample :
    degreeW (build_cooccurrence_graph Tcol Fcol 1) "a:::x" = 2 ∧
      specIncidentWeightSum (build_cooccurrence_graph Tcol Fcol 1) "a:::x" = 1 := by decide

/-- Claim C9 (amended): provided the fields are pairwise distinct and node
ids do not collide (`pairInj`), the built graph has no self-edges, so each
node's weighted degree equals the sum of its incident edge weights; and —
unconditionally, for every built graph, the collision case included — the
weighted handshake identity `sum(weighted degree) = 2 * sum(edge weight)`
holds (networkx's degree convention counts a self-loop twice, which keeps
the identity true even for self-edges). -/
theorem claim9_amended (T : Table) (F : List String) (mc : Nat) :
    (F.Nodup → pairInj F T →
      ∀ p ∈ (build_cooccurrence_graph T F mc).nodes,
        degreeW (build_cooccurrence_graph T F mc) p.1 =
          specIncidentWeightSum (build_cooccurrence_graph T F mc) p.1) ∧
    ((nodeIds (build_cooccurrence_graph T F mc)).map
        (fun n => degreeW (build_cooccurrence_graph T F mc) n)).sum =
      2 * totalWeight (build_cooccurrence_graph T F mc) := by
  constructor
  · intro hF hinj p _
    exact degreeW_eq_incident_of_noSelf (noSelf_build hF hinj mc) p.1
  · have hWF := WF_build T F mc
    exact handshake_lists (nodeIds (build_cooccurrence_graph T F mc))
      (build_cooccurrence_graph T F mc).edges hWF.1 hWF.2

/-- Claim C9 witness: the degree/incident-sum equality discharged at the
spec's §8 scenario table, and the unconditional handshake identity at the
self-loop collision input itself (where it reads 2 = 2 * 1). -/
theorem claim9_witness :
    (∀ p ∈ (build_cooccurrence_graph T0 F0 1).nodes,
      degreeW (build_cooccurrence_graph T0 F0 1) p.1 =
        specIncidentWeightSum (build_cooccurrence_graph T0 F0 1) p.1) ∧
    ((nodeIds (build_cooccurrence_graph Tcol Fcol 1)).map
        (fun n => degreeW (build_cooccurrence_graph Tcol Fcol 1) n)).sum =
      2 * totalWeight (build_cooccurrence_graph Tcol Fcol 1) :=
  ⟨(claim9_amended T0 F0 1).1 (by decide) (by decide),
    (claim9_amended Tcol Fcol 1).2⟩

/-! ## Environments and sorting lemmas for the metrics claims -/

/-- A benign library environment: every call succeeds with an empty result. -/
def envOk : MetricsEnv :=
  { betExact := fun _ => .ok []
    betSampled := fun _ _ _ => .ok []
    scipyOk := true
    eigsVec := fun _ => .ok []
    nxEig := fun _ => .ok []
    igCommunity := fun _ => .ok []
    louvain := fun _ => .ok []
    greedyComm := fun _ => .ok [] }

/-- An environment in which both betweenness calls raise a non-TypeError
exception (e.g. a NetworkXError). -/
def envBetFail : MetricsEnv :=
  { envOk with
    betExact := fun _ => .error .otherError
    betSampled := fun _ _ _ => .error .otherError }

/-- An environment in which the scipy import fails (as on networkx ≥ 3.0,
where `to_scipy_sparse_matrix` no longer exists) and the networkx power
method also fails (the spec's "persistent failure"); every community backend
fails as well. -/
def envEigBad : MetricsEnv :=
  { envOk with
    scipyOk := false
    eigsVec := fun _ => .error .otherError
    nxEig := fun _ => .error .otherError
    igCommunity := fun _ => .error .otherError
    louvain := fun _ => .error .otherError
    greedyComm := fun _ => .error .otherError }

/-- An environment whose sparse eigensolver returns the vector (3, 4). -/
def envEig34 : MetricsEnv :=
  { envOk with eigsVec := fun _ => .ok [3, 4] }

/-- A two-node, one-edge graph (as built from a one-row table with fields
A = x and B = y). -/
def K2 : Graph :=
  ⟨[("A::x", some "x", some "A"), ("B::y", some "y", some "B")],
    [("A::x", "B::y", 1)]⟩

theorem insertDesc_perm {α : Type} (key : α → ℚ) (x : α) (l : List α) :
    List.Perm (insertDesc key x l) (x :: l) := by
  induction l with
  | nil => exact List.Perm.refl _
  | cons y ys ih =>
    unfold insertDesc
    by_cases h : key y < key x
    · rw [if_pos h]
    · rw [if_neg h]
      exact (List.Perm.cons y ih).trans (List.Perm.swap x y ys)

theorem sortDesc_perm {α : Type} (key : α → ℚ) (l : List α) :
    List.Perm (sortDesc key l) l := by
  induction l with
  | nil => exact List.Perm.refl _
  | cons x l ih =>
    show List.Perm (insertDesc key x (sortDesc key l)) (x :: l)
    exact (insertDesc_perm key x (sortDesc key l)).trans (List.Perm.cons x ih)

theorem sum_map_div (l : List ℚ) (s : ℚ) : (l.map (fun q => q / s)).sum = l.sum / s := by
  induction l with
  | nil => simp
  | cons q l ih =>
    rw [List.map_cons, List.sum_cons, List.sum_cons, ih, add_div]

/-! ## Claim theorems on the metrics engine -/

/-- Claim C7 counterexample: with `approx_betweenness=False`, `bet_k=None`,
`max_nodes_for_exact=0` and one node, the node count (1) exceeds the
threshold (0), so the spec's rule derives sample size
`clamp(50, sqrt(1)*10, 500) = 50`, but the code computes exact betweenness
(`None`): the `approx_betweenness` switch also gates the auto-derivation. -/
theorem claim7_counterexample :
    kSelection false none 0 1 = none ∧ specSampleSelection none 0 1 = some 50 := by
  constructor
  · rfl
  · have h : Nat.sqrt 100 = 10 := by
      rw [show (100 : ℕ) = 10 * 10 from rfl, Nat.sqrt_eq]
    simp [specSampleSelection, specClamp, h]

/-- Claim C7 (amended): whenever `approx_betweenness` is enabled, the code's
source-count selection agrees exactly with the spec's rule — an explicit
`bet_k` wins, otherwise node count above the threshold derives
`clamp(50, sqrt(n)*10, 500)` and otherwise exact betweenness; and an
explicit `bet_k` is used regardless of the flag.  Sampling is deterministic:
the sampled call always receives the fixed seed 42 (see `betStep`), and the
embedding is a pure function of the environment. -/
theorem claim7_amended :
    (∀ (betK : Option Nat) (mx n : Nat),
      kSelection true betK mx n = specSampleSelection betK mx n) ∧
    (∀ (approx : Bool) (k mx n : Nat), kSelection approx (some k) mx n = some k) := by
  constructor
  · intro betK mx n
    cases betK with
    | some k => rfl
    | none =>
      unfold kSelection specSampleSelection specClamp
      by_cases h : mx < n
      · have hc : (true && decide (mx < n)) = true := by simp [h]
        rw [if_pos hc, if_pos h]
        have hmm : min 500 (max 50 (Nat.sqrt (100 * n))) =
            max 50 (min (Nat.sqrt (100 * n)) 500) := by
          simp only [Nat.min_def, Nat.max_def]
          split_ifs <;> omega
        rw [hmm]
      · simp [h]
  · intro approx k mx n
    rfl

/-- Claim C2: the build half holds (zero rows give an empty graph), but
`compute_graph_metrics` on the resulting empty graph raises `KeyError`:
`pd.DataFrame([])` has no columns, so `.sort_values("degree_weighted")`
fails — the pipeline does not return empty metrics tables. -/
theorem claim2_bug :
    (∀ (F : List String) (mc : Nat),
      build_cooccurrence_graph ([] : Table) F mc = Graph.empty) ∧
    compute_graph_metrics envOk Graph.empty true none 2000 = .error .keyError := by
  exact ⟨build_nil_table, by decide⟩

/-- Claim C1 counterexample: in an environment where the exact betweenness
call raises (any exception other than the TypeError caught around the
sampled call), `compute_graph_metrics` propagates the error instead of
recovering — the betweenness sub-algorithm has no general fallback. -/
theorem claim1_counterexample :
    compute_graph_metrics envBetFail K2 true none 2000 = .error .otherError := by decide

/-- Claim C1 (amended): for every environment and graph with at least one
node and one edge, if the betweenness step succeeds (directly, or through
the TypeError fallback to the exact call), then `compute_graph_metrics`
returns complete rows — one per node and one per edge — regardless of any
eigenvector or community failures, which are always recovered internally.
A betweenness failure aborts the call, and a graph without nodes or without
edges aborts during output assembly; no upfront input validation exists. -/
theorem claim1_amended (env : MetricsEnv) (G : Graph) (approx : Bool) (bk : Option Nat)
    (mx : Nat) (bt : List (String × ℚ)) (hn : G.nodes ≠ []) (he : G.edges ≠ [])
    (hbet : betStep env G (kSelection approx bk mx G.nodes.length) = .ok bt) :
    ∃ nr ed, compute_graph_metrics env G approx bk mx = .ok (nr, ed) ∧
      List.Perm (nr.map (fun r => r.nodeId)) (nodeIds G) ∧ List.Perm ed G.edges := by
  simp only [compute_graph_metrics, hbet]
  have hnn : (G.nodes.map (fun p =>
      { nodeId := p.1
        label := p.2.1
        column := p.2.2
        degree := degreeU G p.1
        degreeWeighted := (degreeW G p.1 : ℚ)
        degreeCentrality :=
          if 1 < G.nodes.length then (degreeU G p.1 : ℚ) / ((G.nodes.length : ℚ) - 1) else 0
        betweenness := lookupD bt p.1 0
        eigenvector := lookupD (eigBlock env G) p.1 0
        community := lookupD (communityStep env G) p.1 (-1) : NodeRow })).isEmpty = false := by
    rcases hG : G.nodes with _ | ⟨p, ps⟩
    · exact absurd hG hn
    · rfl
  have hee : G.edges.isEmpty = false := by
    rcases hG : G.edges with _ | ⟨e, es⟩
    · exact absurd hG he
    · rfl
  rw [dfSortValues, if_neg (by rw [hnn]; decide), dfSortValues, if_neg (by rw [hee]; decide)]
  refine ⟨_, _, rfl, ?_, ?_⟩
  · refine (List.Perm.map (fun r : NodeRow => r.nodeId) (sortDesc_perm _ _)).trans ?_
    rw [List.map_map]
    have : ((fun r : NodeRow => r.nodeId) ∘ (fun p : NodeEntry =>
        { nodeId := p.1
          label := p.2.1
          column := p.2.2
          degree := degreeU G p.1
          degreeWeighted := (degreeW G p.1 : ℚ)
          degreeCentrality :=
            if 1 < G.nodes.length then (degreeU G p.1 : ℚ) / ((G.nodes.length : ℚ) - 1) else 0
          betweenness := lookupD bt p.1 0
          eigenvector := lookupD (eigBlock env G) p.1 0
          community := lookupD (communityStep env G) p.1 (-1) : NodeRow })) =
        (fun p : NodeEntry => p.1) := rfl
    rw [this]
    exact List.Perm.refl _
  · exact sortDesc_perm _ _

/-- Claim C1 witness: a benign environment on the two-node graph. -/
theorem claim1_witness :
    ∃ nr ed, compute_graph_metrics envOk K2 true none 2000 = .ok (nr, ed) ∧
      List.Perm (nr.map (fun r => r.nodeId)) (nodeIds K2) ∧ List.Perm ed K2.edges :=
  claim1_amended envOk K2 true none 2000 [] (by decide) (by decide) rfl

/-- Claim C8 counterexample: with the scipy path unavailable (the
`to_scipy_sparse_matrix` import chain fails, as on networkx ≥ 3.0) and the
networkx power method also failing, compute succeeds on a 2-node 1-edge
graph but returns eigenvector score 0.0 for every node — the scores sum to
0, not 1.0, exactly the persistent-failure fallback the spec itself
prescribes. -/
theorem claim8_counterexample :
    K2.nodes.length = 2 ∧ K2.edges.length = 1 ∧
    (compute_graph_metrics envEigBad K2 true none 2000).toOption.map
      (fun p => p.1.map (fun r => r.eigenvector)) = some [0, 0] ∧
    ([(0 : ℚ), 0]).sum ≠ 1 := by
  refine ⟨by decide, by decide, by decide, ?_⟩
  simp

/-- Claim C8 (amended): on the scipy path, a zero-node graph yields an empty
result and a one-node graph yields centrality 1.0, without error; when the
sparse eigensolver succeeds on a graph with at least 2 nodes and returns a
vector of matching length with nonzero absolute sum, the resulting scores
are non-negative and sum to exactly 1; when the scipy path is unavailable
and the power-method fallback also fails, every node scores 0.0 (so the
sum-to-1 property holds only on the successful solver path, not under the
fallbacks). -/
theorem claim8_amended :
    (∀ (env : MetricsEnv) (G : Graph), env.scipyOk = true → G.nodes = [] →
      eigBlock env G = []) ∧
    (∀ (env : MetricsEnv) (G : Graph) (i : String) (l c : Option String),
      env.scipyOk = true → G.nodes = [(i, l, c)] → eigBlock env G = [(i, 1)]) ∧
    (∀ (env : MetricsEnv) (G : Graph) (v : List ℚ), env.scipyOk = true →
      env.eigsVec G = .ok v → 2 ≤ G.nodes.length → v.length = G.nodes.length →
      (v.map (fun q => |q|)).sum ≠ 0 →
      (∀ p ∈ eigBlock env G, 0 ≤ p.2) ∧
        ((eigBlock env G).map (fun p => p.2)).sum = 1) ∧
    (∀ (env : MetricsEnv) (G : Graph), env.scipyOk = false →
      (∃ err, env.nxEig G = .error err) →
      eigBlock env G = G.nodes.map (fun p => (p.1, (0 : ℚ)))) := by
  refine ⟨?_, ?_, ?_, ?_⟩
  · intro env G hs hG
    unfold eigBlock
    rw [hs, hG]
    rfl
  · intro env G i l c hs hG
    unfold eigBlock
    rw [hs, hG]
    rfl
  · intro env G v hs hv h2 hlen hsum
    have hids : (G.nodes.map (fun p => p.1)).length = G.nodes.length := List.length_map ..
    have hblock : eigBlock env G =
        (G.nodes.map (fun p => p.1)).zip
          ((v.map (fun q => |q|)).map (fun q => q / (v.map (fun q => |q|)).sum)) := by
      obtain ⟨i, j, rest, hG⟩ : ∃ i j rest, G.nodes.map (fun p => p.1) = i :: j :: rest := by
        rcases hG : G.nodes.map (fun p => p.1) with _ | ⟨i, rest⟩
        · exfalso
          have : G.nodes.length = 0 := by
            rw [← hids, hG]
            rfl
          omega
        · rcases rest with _ | ⟨j, rest2⟩
          · exfalso
            have : G.nodes.length = 1 := by
              rw [← hids, hG]
              rfl
            omega
          · exact ⟨i, j, rest2, hG⟩
      unfold eigBlock
      rw [hs, if_pos (show (true = true) from rfl), hG]
      simp only [hv]
      rw [if_pos hsum, ← hG]
    have hs0 : (0 : ℚ) ≤ (v.map (fun q => |q|)).sum :=
      List.sum_nonneg (fun q hq => by
        obtain ⟨x, _, hx⟩ := List.mem_map.mp hq
        rw [← hx]
        exact abs_nonneg x)
    have hspos : (0 : ℚ) < (v.map (fun q => |q|)).sum := lt_of_le_of_ne hs0 (Ne.symm hsum)
    constructor
    · intro p hp
      rw [hblock] at hp
      have hp2 := (List.of_mem_zip hp).2
      obtain ⟨q, hq, hq2⟩ := List.mem_map.mp hp2
      obtain ⟨x, _, hx⟩ := List.mem_map.mp hq
      rw [← hq2, ← hx]
      exact div_nonneg (abs_nonneg x) (le_of_lt hspos)
    · rw [hblock]
      have hlen2 : ((v.map (fun q => |q|)).map
          (fun q => q / (v.map (fun q => |q|)).sum)).length ≤
          (G.nodes.map (fun p => p.1)).length := by
        rw [List.length_map, List.length_map, hids, hlen]
      rw [List.map_snd_zip _ _ hlen2, sum_map_div, div_self hsum]
  · intro env G hs hfail
    obtain ⟨err, herr⟩ := hfail
    unfold eigBlock
    rw [hs]
    show nxEigFallback env G = _
    unfold nxEigFallback
    rw [herr]

/-- Claim C8 witness: solver vector (3, 4) on the two-node graph gives
scores 3/7 and 4/7 — non-negative, summing to 1. -/
theorem claim8_witness :
    (∀ p ∈ eigBlock envEig34 K2, 0 ≤ p.2) ∧
      ((eigBlock envEig34 K2).map (fun p => p.2)).sum = 1 :=
  claim8_amended.2.2.1 envEig34 K2 [3, 4] rfl rfl (by decide) (by decide)
    (by norm_num)

end Grafos
